import Mathlib

/-!
Verification of the Compiler-in-Go repository against its specification.

This file contains a shallow embedding, in Lean 4, of the parts of the
compiler that the specification claims describe: the type system
(internal/semantic/types/types.go), the IR data model and verifier
(internal/ir), the optimizer passes (internal/optimizer: constant folding
and dead-code elimination with unreachable-block removal), the lexer
(internal/lexer) and the IR builder (internal/ir/builder.go).

Modelling conventions, used consistently below:
- Go slices become Lean lists; Go maps keyed by pointers become
  association lists keyed by the structural content that makes the
  pointed-to objects distinct in the program (value ids, block ids).
- Pointer identity of basic blocks is modelled by a block id field
  `bid`; the compiler allocates every block exactly once, so block
  pointers are in bijection with creation order.
- Go `int64` arithmetic is modelled on `Int` with an explicit
  two-complement wrap at 64 bits where the Go operation can overflow.
- Go loops whose termination argument is a strictly decreasing measure
  are modelled by structural recursion on an explicit `fuel` argument;
  the callers pass a fuel value that provably dominates the measure, so
  the fuel never runs out on the executions the Go code performs.
- Functions that can fail return `Option`; the Go `error` results of the
  verifier and lexer are modelled as structured values.

The file is organised as: all definitions first, then all theorems.
-/

set_option maxHeartbeats 4000000

namespace CompilerGo

/-! ## Type system (internal/semantic/types/types.go)

The Go code represents types as an interface with one struct per
variant.  The closed set of variants becomes an inductive type.  The
struct field slice and the function parameter slice become lists.
-/

/-- The Go type variants: Invalid, Void, Int, Float, Bool, String, Char,
Nil, ArrayType (element type and size, -1 meaning dynamic), StructType
(name and ordered fields) and FunctionType (parameters and return
type). -/
inductive Ty : Type where
  | invalid : Ty
  | void : Ty
  | int : Ty
  | float : Ty
  | bool : Ty
  | string : Ty
  | nil : Ty
  | char : Ty
  | array (elementType : Ty) (size : Int) : Ty
  | struct (name : String) (fields : List (String × Ty)) : Ty
  | func (parameters : List Ty) (returnType : Ty) : Ty

mutual

/-- The `Equals` method of each type variant, from types.go:
InvalidType.Equals always returns false; each primitive equals exactly
its own variant; arrays compare size and element type; structs compare
by name when both are named and structurally otherwise; functions
compare the return type and then the parameters pairwise. -/
def Ty.equals : Ty → Ty → Bool
  | .invalid, _ => false
  | .void, other => match other with | .void => true | _ => false
  | .int, other => match other with | .int => true | _ => false
  | .float, other => match other with | .float => true | _ => false
  | .bool, other => match other with | .bool => true | _ => false
  | .string, other => match other with | .string => true | _ => false
  | .char, other => match other with | .char => true | _ => false
  | .nil, other => match other with | .nil => true | _ => false
  | .array e s, other =>
      match other with
      | .array e2 s2 => s == s2 && Ty.equals e e2
      | _ => false
  | .struct n f, other =>
      match other with
      | .struct n2 f2 =>
          if n != "" && n2 != "" then n == n2
          else Ty.fieldsEqual f f2
      | _ => false
  | .func p r, other =>
      match other with
      | .func p2 r2 => Ty.equals r r2 && Ty.paramsEqual p p2
      | _ => false

/-- The field comparison loop of StructType.Equals: a length check
followed by a pairwise comparison of field name and field type. -/
def Ty.fieldsEqual : List (String × Ty) → List (String × Ty) → Bool
  | [], [] => true
  | (n1, t1) :: r1, (n2, t2) :: r2 =>
      n1 == n2 && Ty.equals t1 t2 && Ty.fieldsEqual r1 r2
  | _, _ => false

/-- The parameter comparison loop of FunctionType.Equals: a length check
followed by a pairwise Equals. -/
def Ty.paramsEqual : List Ty → List Ty → Bool
  | [], [] => true
  | t1 :: r1, t2 :: r2 => Ty.equals t1 t2 && Ty.paramsEqual r1 r2
  | _, _ => false

end

/-- The `AssignableTo` method of each type variant, from types.go:
Invalid and Void are assignable to nothing; Nil is assignable exactly to
arrays and structs; every other variant delegates to Equals. -/
def Ty.assignableTo : Ty → Ty → Bool
  | .invalid, _ => false
  | .void, _ => false
  | .int, other => Ty.equals .int other
  | .float, other => Ty.equals .float other
  | .bool, other => Ty.equals .bool other
  | .string, other => Ty.equals .string other
  | .char, other => Ty.equals .char other
  | .nil, other =>
      match other with
      | .array _ _ => true
      | .struct _ _ => true
      | _ => false
  | .array e s, other => Ty.equals (.array e s) other
  | .struct n f, other => Ty.equals (.struct n f) other
  | .func p r, other => Ty.equals (.func p r) other

/-- The IsNumeric helper of types.go. -/
def Ty.isNumeric : Ty → Bool
  | .int => true
  | .float => true
  | _ => false

/-- The IsBooleanType helper of types.go. -/
def Ty.isBooleanType : Ty → Bool
  | .bool => true
  | _ => false

mutual

/-- A type none of whose components is the Invalid type.  This predicate
is not in the Go code; it delimits the types on which the reflexivity
laws of the specification actually hold. -/
def Ty.noInvalid : Ty → Bool
  | .invalid => false
  | .array e _ => Ty.noInvalid e
  | .struct _ f => Ty.fieldsNoInvalid f
  | .func p r => Ty.noInvalid r && Ty.paramsNoInvalid p
  | _ => true

/-- Pointwise `noInvalid` over struct fields. -/
def Ty.fieldsNoInvalid : List (String × Ty) → Bool
  | [] => true
  | (_, t) :: r => Ty.noInvalid t && Ty.fieldsNoInvalid r

/-- Pointwise `noInvalid` over parameter lists. -/
def Ty.paramsNoInvalid : List Ty → Bool
  | [] => true
  | t :: r => Ty.noInvalid t && Ty.paramsNoInvalid r

end

mutual

/-- A type all of whose struct components carry a nonempty name.  This
predicate is not in the Go code; it delimits the types on which Equals
is transitive, because a named struct and an anonymous struct are
compared structurally while two named structs are compared by name. -/
def Ty.allNamedStructs : Ty → Bool
  | .array e _ => Ty.allNamedStructs e
  | .struct n f => n != "" && Ty.fieldsAllNamed f
  | .func p r => Ty.allNamedStructs r && Ty.paramsAllNamed p
  | _ => true

/-- Pointwise `allNamedStructs` over struct fields. -/
def Ty.fieldsAllNamed : List (String × Ty) → Bool
  | [] => true
  | (_, t) :: r => Ty.allNamedStructs t && Ty.fieldsAllNamed r

/-- Pointwise `allNamedStructs` over parameter lists. -/
def Ty.paramsAllNamed : List Ty → Bool
  | [] => true
  | t :: r => Ty.allNamedStructs t && Ty.paramsAllNamed r

end

/-! ## IR data model (internal/ir: values, instructions, blocks, functions, modules)

Basic blocks are heap objects mutated through pointers in Go.  Every
block is created exactly once (by NewBasicBlock / NewBasicBlockInFunc),
so pointer identity is modelled by a block id `bid` equal to the
creation order inside the function; instructions refer to target blocks
by that id, and mutation through a pointer becomes an update of the
block with that id inside the function.  IR values are also heap
objects; within one function every value that an instruction defines is
created once by NewValue with a fresh id, so value pointer identity is
modelled by the structural content of the value record.
-/

/-- Constant payloads stored in the `Constant interface` field of an IR
value.  The compiler stores int64 and bool payloads (and the parser may
store float64 and string literal payloads, modelled by their lexeme);
`null` models the nil interface of a value that carries no payload. -/
inductive ConstLit : Type where
  | int (value : Int) : ConstLit
  | bool (value : Bool) : ConstLit
  | float (lexeme : String) : ConstLit
  | str (value : String) : ConstLit
  | null : ConstLit

/-- The ValueKind enumeration of ir.go. -/
inductive ValueKind : Type where
  | var : ValueKind
  | temporary : ValueKind
  | constant : ValueKind
  | parameter : ValueKind
  deriving Repr, DecidableEq

/-- An IR value (ir.go Value): id, source name, type, kind and constant
payload. -/
structure Value : Type where
  id : Int
  name : String := ""
  type : Ty
  kind : ValueKind
  constant : ConstLit := .null

/-- Value.IsConstant from ir.go. -/
def Value.isConstant (v : Value) : Bool := v.kind == .constant

/-- The BinaryOperator enumeration of ir.go. -/
inductive BinaryOperator : Type where
  | add | sub | mul | div | mod
  | eq | neq | lt | le | gt | ge
  | and | or
  | bitAnd | bitOr | bitXor | shl | shr
  deriving Repr, DecidableEq

/-- The UnaryOperator enumeration of ir.go. -/
inductive UnaryOperator : Type where
  | neg | not | bitNot
  deriving Repr, DecidableEq

/-- The instruction variants of ir.go.  Block targets (Jump, Branch and
Phi incoming entries) are block ids. -/
inductive Instruction : Type where
  | binaryOp (op : BinaryOperator) (dest left right : Value) : Instruction
  | unaryOp (op : UnaryOperator) (dest operand : Value) : Instruction
  | copy (dest value : Value) : Instruction
  | load (dest address : Value) : Instruction
  | store (address value : Value) : Instruction
  | getElementPtr (dest base index : Value) : Instruction
  | getFieldPtr (dest base : Value) (fieldIndex : Int) : Instruction
  | jump (target : Nat) : Instruction
  | branch (condition : Value) (trueBlock falseBlock : Nat) : Instruction
  | call (dest : Option Value) (function : Value) (args : List Value) : Instruction
  | ret (value : Option Value) : Instruction
  | phi (dest : Value) (incoming : List (Value × Nat)) : Instruction
  | alloca (dest : Value) (type : Ty) : Instruction

/-- The Operands method of each instruction variant, from ir.go: the
values the instruction reads. -/
def Instruction.operands : Instruction → List Value
  | .binaryOp _ _ l r => [l, r]
  | .unaryOp _ _ o => [o]
  | .copy _ v => [v]
  | .load _ a => [a]
  | .store a v => [a, v]
  | .getElementPtr _ b i => [b, i]
  | .getFieldPtr _ b _ => [b]
  | .jump _ => []
  | .branch c _ _ => [c]
  | .call _ f args => f :: args
  | .ret v => match v with | some x => [x] | none => []
  | .phi _ inc => inc.map (fun p => p.1)
  | .alloca _ _ => []

/-- The Result method of each instruction variant, from ir.go: the value
the instruction defines, if any. -/
def Instruction.result : Instruction → Option Value
  | .binaryOp _ d _ _ => some d
  | .unaryOp _ d _ => some d
  | .copy d _ => some d
  | .load d _ => some d
  | .store _ _ => none
  | .getElementPtr d _ _ => some d
  | .getFieldPtr d _ _ => some d
  | .jump _ => none
  | .branch _ _ _ => none
  | .call d _ _ => d
  | .ret _ => none
  | .phi d _ => some d
  | .alloca d _ => some d

/-- The terminator test used by BasicBlock.Terminator: Jump, Branch and
Return are the terminator instructions. -/
def Instruction.isTerminatorInstr : Instruction → Bool
  | .jump _ => true
  | .branch _ _ _ => true
  | .ret _ => true
  | _ => false

/-- A basic block (block.go): label, ordered instructions, successor and
predecessor lists (by block id) and position index in the function block
list.  The unused Dominated field is omitted. -/
structure BasicBlock : Type where
  bid : Nat
  label : String
  instructions : List Instruction := []
  successors : List Nat := []
  predecessors : List Nat := []
  index : Nat := 0

/-- BasicBlock.AddInstruction: append at the end. -/
def BasicBlock.addInstruction (bb : BasicBlock) (i : Instruction) : BasicBlock :=
  { bb with instructions := bb.instructions ++ [i] }

/-- BasicBlock.Terminator: the last instruction when it is a Jump,
Branch or Return, nothing otherwise. -/
def BasicBlock.terminator (bb : BasicBlock) : Option Instruction :=
  match bb.instructions.getLast? with
  | none => none
  | some last => if last.isTerminatorInstr then some last else none

/-- BasicBlock.IsTerminated. -/
def BasicBlock.isTerminated (bb : BasicBlock) : Bool := bb.terminator.isSome

/-- An IR function (block.go Function): name, parameter values, return
type, block list, entry block id, locals, and its value id generator. -/
structure Function : Type where
  name : String
  parameters : List Value
  returnType : Ty
  blocks : List BasicBlock
  entry : Nat
  locals : List Value := []
  nextValueID : Int

/-- NewFunction: one fresh entry block, value ids starting after the
parameters. -/
def Function.newFunction (name : String) (params : List Value) (returnType : Ty) : Function :=
  { name := name, parameters := params, returnType := returnType,
    blocks := [{ bid := 0, label := "entry" }], entry := 0,
    locals := [], nextValueID := params.length }

/-- Function.NewBasicBlockInFunc: create a block labelled `label`, set
its Index to the current block count, append it, and return it.  The
returned block id equals the creation order, which the builder never
reuses, so it models the fresh pointer. -/
def Function.newBasicBlockInFunc (f : Function) (label : String) : Nat × Function :=
  let bidv := f.blocks.length
  let bb : BasicBlock := { bid := bidv, label := label, index := f.blocks.length }
  (bidv, { f with blocks := f.blocks ++ [bb] })

/-- Dereference a block pointer: the (unique) block of the function with
the given id.  The Go code never dereferences a dangling pointer; the
default value is never reached on the executions modelled here. -/
def Function.blockByIdD (f : Function) (bidv : Nat) : BasicBlock :=
  (f.blocks.find? (fun b => b.bid == bidv)).getD { bid := bidv, label := "" }

/-- Mutation of one block through its pointer: update the block with the
given id in place. -/
def Function.updateBlock (f : Function) (bidv : Nat) (g : BasicBlock → BasicBlock) : Function :=
  { f with blocks := f.blocks.map (fun b => if b.bid == bidv then g b else b) }

/-- Append an instruction to the block with the given id. -/
def Function.addInstructionAt (f : Function) (bidv : Nat) (i : Instruction) : Function :=
  f.updateBlock bidv (fun b => b.addInstruction i)

/-- The first append of BasicBlock.AddSuccessor: push a block id onto
the successor list. -/
def succAppend (toBid : Nat) (b : BasicBlock) : BasicBlock :=
  { b with successors := b.successors ++ [toBid] }

/-- The second append of BasicBlock.AddSuccessor: push a block id onto
the predecessor list. -/
def predAppend (fromBid : Nat) (b : BasicBlock) : BasicBlock :=
  { b with predecessors := b.predecessors ++ [fromBid] }

/-- BasicBlock.AddSuccessor from block.go, on the owning function: if
`toBid` already occurs in the successor list of `fromBid`, do nothing;
otherwise append `toBid` to the successors of `fromBid` and `fromBid` to
the predecessors of `toBid`. -/
def Function.addSuccessor (f : Function) (fromBid toBid : Nat) : Function :=
  if toBid ∈ (f.blockByIdD fromBid).successors then f
  else
    (f.updateBlock fromBid (succAppend toBid)).updateBlock toBid (predAppend fromBid)

/-- Function.NewValue: a fresh value with the next id. -/
def Function.newValue (f : Function) (name : String) (typ : Ty) (kind : ValueKind) :
    Value × Function :=
  ({ id := f.nextValueID, name := name, type := typ, kind := kind },
   { f with nextValueID := f.nextValueID + 1 })

/-- Function.NewTemp. -/
def Function.newTemp (f : Function) (typ : Ty) : Value × Function :=
  f.newValue "" typ .temporary

/-- A module (block.go Module): name, functions and globals. -/
structure Module : Type where
  name : String
  functions : List Function := []
  globals : List Value := []

/-- Module.AddFunction. -/
def Module.addFunction (m : Module) (fn : Function) : Module :=
  { m with functions := m.functions ++ [fn] }

/-! ## IR verifier (block.go Module.Verify) -/

/-- The two error shapes Module.Verify can produce (the Go code formats
them as strings). -/
inductive VerifyError : Type where
  | noTerminator (blockLabel : String) (funcName : String) : VerifyError
  | entryHasPreds (funcName : String) : VerifyError
  deriving Repr, DecidableEq

/-- Module.Verify from block.go: for every function, report every block
whose last instruction is not a terminator, then report the entry block
when it has predecessors.  No other check is performed. -/
def Module.verify (m : Module) : List VerifyError :=
  m.functions.flatMap (fun fn =>
    (fn.blocks.filter (fun b => !b.isTerminated)).map
      (fun b => VerifyError.noTerminator b.label fn.name)
    ++ (if (fn.blockByIdD fn.entry).predecessors.length != 0 then
          [VerifyError.entryHasPreds fn.name]
        else []))

/-! ## Go int64 arithmetic

The folding pass computes on Go int64 values.  They are modelled as
unbounded integers with an explicit two-complement wrap at 64 bits
where the Go operation can overflow.
-/

/-- Normalize an integer into the int64 range by a two-complement wrap. -/
def wrap64 (n : Int) : Int := (n + 2 ^ 63) % 2 ^ 64 - 2 ^ 63

/-- Go int64 addition. -/
def goAdd64 (x y : Int) : Int := wrap64 (x + y)

/-- Go int64 subtraction. -/
def goSub64 (x y : Int) : Int := wrap64 (x - y)

/-- Go int64 multiplication. -/
def goMul64 (x y : Int) : Int := wrap64 (x * y)

/-- Go int64 division: truncation toward zero; the only overflow,
MinInt64 divided by -1, wraps to MinInt64. -/
def goDiv64 (x y : Int) : Int := wrap64 (x.tdiv y)

/-- Go int64 remainder: the sign follows the dividend; never
overflows. -/
def goMod64 (x y : Int) : Int := x.tmod y

/-- Go int64 negation: MinInt64 wraps to itself. -/
def goNeg64 (x : Int) : Int := wrap64 (-x)

/-- The uint conversion the folding pass applies to a shift count. -/
def goShiftCount (y : Int) : Nat := (y % 2 ^ 64).toNat

/-- Go int64 left shift by an unsigned count: zero once the count
reaches the width, a wrapped product of a power of two below it. -/
def goShl64 (x y : Int) : Int :=
  if 64 ≤ goShiftCount y then 0 else wrap64 (x * 2 ^ goShiftCount y)

/-- Go int64 arithmetic right shift by an unsigned count: floor
division by a power of two, saturating at 0 or -1 once the count
reaches the width. -/
def goShr64 (x y : Int) : Int :=
  if 64 ≤ goShiftCount y then (if x < 0 then -1 else 0)
  else Int.fdiv x (2 ^ goShiftCount y)

/-- Go int64 bitwise complement: `^x` equals `-x - 1` in two-complement
representation; never overflows. -/
def goBitNot64 (x : Int) : Int := -x - 1

/-! ## Constant folding pass (optimizer: ConstantFoldingPass)

The `constants map[*ir.Value]interface{}` is modelled as an association
list keyed by the destination value (pointer identity = structural
content of the value record; every destination inside one function has a
distinct id from the NewValue generator).  Map assignment prepends, and
lookup takes the first match, which gives the overwrite semantics of a
Go map.
-/

mutual

/-- Structural equality on types, used as the pointer-identity surrogate
for values held in the constants map and the used set; not the same
function as the Equals method of the type system. -/
def Ty.beqT : Ty → Ty → Bool
  | .invalid, .invalid => true
  | .void, .void => true
  | .int, .int => true
  | .float, .float => true
  | .bool, .bool => true
  | .string, .string => true
  | .nil, .nil => true
  | .char, .char => true
  | .array e s, .array e2 s2 => s == s2 && Ty.beqT e e2
  | .struct n f, .struct n2 f2 => n == n2 && Ty.beqFieldsT f f2
  | .func p r, .func p2 r2 => Ty.beqT r r2 && Ty.beqParamsT p p2
  | _, _ => false

/-- Structural equality on field lists. -/
def Ty.beqFieldsT : List (String × Ty) → List (String × Ty) → Bool
  | [], [] => true
  | (n1, t1) :: r1, (n2, t2) :: r2 => n1 == n2 && Ty.beqT t1 t2 && Ty.beqFieldsT r1 r2
  | _, _ => false

/-- Structural equality on parameter lists. -/
def Ty.beqParamsT : List Ty → List Ty → Bool
  | [], [] => true
  | t1 :: r1, t2 :: r2 => Ty.beqT t1 t2 && Ty.beqParamsT r1 r2
  | _, _ => false

end

instance : BEq Ty := ⟨Ty.beqT⟩

/-- Structural equality on constant payloads. -/
def ConstLit.beqC : ConstLit → ConstLit → Bool
  | .int a, .int b => a == b
  | .bool a, .bool b => a == b
  | .float a, .float b => a == b
  | .str a, .str b => a == b
  | .null, .null => true
  | _, _ => false

instance : BEq ConstLit := ⟨ConstLit.beqC⟩

/-- Pointer-identity surrogate for IR values: full structural equality
of the record. -/
instance : BEq Value :=
  ⟨fun a b => a.id == b.id && a.name == b.name && a.type == b.type
      && a.kind == b.kind && a.constant == b.constant⟩

/-- The constants map of the folding pass. -/
def CMap : Type := List (Value × ConstLit)

/-- Go map assignment (overwrite = shadowing prepend). -/
def cmapInsert (k : Value) (v : ConstLit) (m : CMap) : CMap := (k, v) :: m

/-- Go map lookup. -/
def cmapLookup (m : CMap) (k : Value) : Option ConstLit :=
  match List.find? (fun p => p.1 == k) m with
  | some p => some p.2
  | none => none

/-- ConstantFoldingPass.getConstantValue: a directly constant value
yields its payload, otherwise the constants map is consulted. -/
def getConstantValue (v : Value) (constants : CMap) : Option ConstLit :=
  if v.isConstant then some v.constant
  else cmapLookup constants v

/-- The constant value the folding pass builds for an integer result
(typed Int, id -1). -/
def constIntValue (n : Int) : Value :=
  { id := -1, type := .int, kind := .constant, constant := .int n }

/-- ConstantFoldingPass.createBoolCopy: a Copy of a Bool constant. -/
def createBoolCopy (dest : Value) (b : Bool) : Instruction :=
  .copy dest { id := -1, type := .bool, kind := .constant, constant := .bool b }

/-- ConstantFoldingPass.foldBinaryOpWithConstants: fold when both
operands resolve to int64 constants; division and modulo are not folded
when the right operand is zero; comparisons produce Bool copies, all
other foldable operators produce Int copies; the logical operators fall
to the default case and are not folded. -/
def foldBinaryOp (op : BinaryOperator) (dest left right : Value) (constants : CMap) :
    Option Instruction :=
  match getConstantValue left constants, getConstantValue right constants with
  | some leftConst, some rightConst =>
      match leftConst, rightConst with
      | .int lv, .int rv =>
          match op with
          | .add => some (.copy dest (constIntValue (goAdd64 lv rv)))
          | .sub => some (.copy dest (constIntValue (goSub64 lv rv)))
          | .mul => some (.copy dest (constIntValue (goMul64 lv rv)))
          | .div => if rv == 0 then none else some (.copy dest (constIntValue (goDiv64 lv rv)))
          | .mod => if rv == 0 then none else some (.copy dest (constIntValue (goMod64 lv rv)))
          | .eq => some (createBoolCopy dest (lv == rv))
          | .neq => some (createBoolCopy dest (lv != rv))
          | .lt => some (createBoolCopy dest (decide (lv < rv)))
          | .le => some (createBoolCopy dest (decide (lv ≤ rv)))
          | .gt => some (createBoolCopy dest (decide (lv > rv)))
          | .ge => some (createBoolCopy dest (decide (lv ≥ rv)))
          | .bitAnd => some (.copy dest (constIntValue (Int.land lv rv)))
          | .bitOr => some (.copy dest (constIntValue (Int.lor lv rv)))
          | .bitXor => some (.copy dest (constIntValue (Int.xor lv rv)))
          | .shl => some (.copy dest (constIntValue (goShl64 lv rv)))
          | .shr => some (.copy dest (constIntValue (goShr64 lv rv)))
          | .and => none
          | .or => none
      | _, _ => none
  | _, _ => none

/-- ConstantFoldingPass.foldUnaryOpWithConstants: an int64 operand folds
negation and bitwise complement; a bool operand folds logical not. -/
def foldUnaryOp (op : UnaryOperator) (dest operand : Value) (constants : CMap) :
    Option Instruction :=
  match getConstantValue operand constants with
  | none => none
  | some c =>
      match c with
      | .int iv =>
          match op with
          | .neg => some (.copy dest (constIntValue (goNeg64 iv)))
          | .bitNot => some (.copy dest (constIntValue (goBitNot64 iv)))
          | .not => none
      | .bool bv => if op == .not then some (createBoolCopy dest (!bv)) else none
      | _ => none

/-- ConstantFoldingPass.foldInstructionWithConstants. -/
def foldInstructionWithConstants (i : Instruction) (constants : CMap) : Option Instruction :=
  match i with
  | .binaryOp op d l r => foldBinaryOp op d l r constants
  | .unaryOp op d o => foldUnaryOp op d o constants
  | _ => none

/-- The first pass of ConstantFoldingPass.Run: record every Copy whose
right-hand side is a constant. -/
def cfCollectCopies (fn : Function) : CMap :=
  fn.blocks.foldl (fun m b =>
    b.instructions.foldl (fun m i =>
      match i with
      | .copy d v => if v.isConstant then cmapInsert d v.constant m else m
      | _ => m) m) []

/-- The instruction loop of the second pass of ConstantFoldingPass.Run:
replace each foldable instruction in place and record newly folded
constant copies in the map. -/
def cfFoldInstrList : List Instruction → CMap → (List Instruction × CMap)
  | [], m => ([], m)
  | i :: rest, m =>
      match foldInstructionWithConstants i m with
      | some folded =>
          let m2 :=
            match folded with
            | .copy d v => if v.isConstant then cmapInsert d v.constant m else m
            | _ => m
          let p := cfFoldInstrList rest m2
          (folded :: p.1, p.2)
      | none =>
          let p := cfFoldInstrList rest m
          (i :: p.1, p.2)

/-- The block loop of the second pass of ConstantFoldingPass.Run; the
constants map threads across blocks in block order. -/
def cfFoldBlocks : List BasicBlock → CMap → (List BasicBlock × CMap)
  | [], m => ([], m)
  | b :: rest, m =>
      let p := cfFoldInstrList b.instructions m
      let q := cfFoldBlocks rest p.2
      ({ b with instructions := p.1 } :: q.1, q.2)

/-- ConstantFoldingPass.Run (the pass never returns an error). -/
def constantFoldingRun (fn : Function) : Function :=
  let constants := cfCollectCopies fn
  { fn with blocks := (cfFoldBlocks fn.blocks constants).1 }

/-! ## Dead-code elimination pass (optimizer: DeadCodeEliminationPass)

The recursive markValue of the Go code terminates because every
recursive step marks a previously unmarked value, so the recursion
depth is bounded by the number of values a function mentions.  The
model passes that bound explicitly as fuel (structural recursion);
`markUsedValues` supplies a fuel that dominates every path of the Go
recursion, so the base case of exhausted fuel is never taken on the
executions the Go code performs.
-/

/-- DeadCodeEliminationPass.isCritical: Store, Call, Return, Branch and
Jump are kept unconditionally. -/
def isCritical : Instruction → Bool
  | .store _ _ => true
  | .call _ _ _ => true
  | .ret _ => true
  | .branch _ _ _ => true
  | .jump _ => true
  | _ => false

/-- All instructions of a function in block order. -/
def allInstructions (fn : Function) : List Instruction :=
  fn.blocks.flatMap (fun b => b.instructions)

/-- The definition search inside markValue: the first instruction in
block order whose Result is the given value. -/
def findDefiningInstr (fn : Function) (v : Value) : Option Instruction :=
  (allInstructions fn).find? (fun i =>
    match i.result with
    | some r => r == v
    | none => false)

/-- The recursive marking of DeadCodeEliminationPass.markValue, over the
list of values still to mark at the current level: skip marked values
and constants, otherwise mark the value and recurse into the operands of
its defining instruction. -/
def markValueList (fn : Function) : Nat → List Value → List Value → List Value
  | 0, _, used => used
  | _ + 1, [], used => used
  | fuel + 1, v :: rest, used =>
      let used2 :=
        if used.contains v then used
        else if v.isConstant then used
        else
          let used1 := v :: used
          match findDefiningInstr fn v with
          | none => used1
          | some instr => markValueList fn fuel instr.operands used1
      markValueList fn fuel rest used2

/-- A fuel that dominates the recursion of markValue: along any path
the Go recursion alternates list steps (bounded by the total operand
count) and marking steps (bounded by the instruction count). -/
def dceMarkFuel (fn : Function) : Nat :=
  (allInstructions fn).foldl (fun acc i => acc + i.operands.length) 0
    + (allInstructions fn).length + 2

/-- DeadCodeEliminationPass.markUsedValues: mark the operands of every
critical instruction, transitively through defining instructions. -/
def markUsedValues (fn : Function) : List Value :=
  fn.blocks.foldl (fun used b =>
    b.instructions.foldl (fun used i =>
      if isCritical i then markValueList fn (dceMarkFuel fn) i.operands used
      else used) used) []

/-- The keep test of removeUnusedInstructions: critical instructions
stay, and so does any instruction whose result is in the used set. -/
def dceKeep (used : List Value) (i : Instruction) : Bool :=
  isCritical i ||
    (match i.result with
     | some r => used.contains r
     | none => false)

/-- DeadCodeEliminationPass.removeUnusedInstructions: sweep every block,
dropping the instructions that fail the keep test; the boolean records
whether anything was dropped. -/
def removeUnusedInstructions (fn : Function) (used : List Value) : Function × Bool :=
  ({ fn with blocks := fn.blocks.map (fun b =>
       { b with instructions := b.instructions.filter (dceKeep used) }) },
   fn.blocks.any (fun b => b.instructions.any (fun i => !dceKeep used i)))

/-- The explicit-stack depth-first search of removeUnreachableBlocks.
The Go loop terminates because every iteration pops one entry and a
strictly decreasing potential (stack size plus the weight of unvisited
blocks) bounds the number of iterations; the model passes that bound as
fuel.  The Go stack pops from the end of a slice; the model keeps the
top of the stack at the head of the list, so pushing the filtered
successors preserves the Go pop order by prepending them reversed.  The
visited set produced is the same. -/
def dfsReachable (fn : Function) : Nat → List Nat → List Nat → List Nat
  | 0, _, reach => reach
  | _ + 1, [], reach => reach
  | fuel + 1, cur :: rest, reach =>
      if cur ∈ reach then dfsReachable fn fuel rest reach
      else
        let reach2 := cur :: reach
        let pushed := (((fn.blockByIdD cur).successors).filter (fun s => !(reach2.contains s))).reverse
        dfsReachable fn fuel (pushed ++ rest) reach2

/-- The potential that bounds the DFS loop: one per stack entry plus
the successor weight of every unvisited block. -/
def dfsFuel (fn : Function) : Nat :=
  1 + (fn.blocks.map (fun b => b.successors.length + 1)).sum + 1

/-- DeadCodeEliminationPass.removeUnreachableBlocks: mark the blocks
reachable from the entry along successor edges, delete the rest, and
renumber the surviving indices; the boolean records whether any block
was deleted. -/
def removeUnreachableBlocks (fn : Function) : Function × Bool :=
  let reachable := dfsReachable fn (dfsFuel fn) [fn.entry] []
  let modified := fn.blocks.any (fun b => !(reachable.contains b.bid))
  if modified then
    let newBlocks := fn.blocks.filter (fun b => reachable.contains b.bid)
    ({ fn with blocks := newBlocks.enum.map (fun p => { p.2 with index := p.1 }) },
     true)
  else (fn, false)

/-- One iteration of the DeadCodeEliminationPass.Run loop: mark, sweep,
remove unreachable blocks. -/
def dceOnce (fn : Function) : Function × Bool :=
  let used := markUsedValues fn
  let p1 := removeUnusedInstructions fn used
  let p2 := removeUnreachableBlocks p1.1
  (p2.1, p1.2 || p2.2)

/-- The total number of instructions of a function
(Optimizer.countInstructions). -/
def countInstructions (fn : Function) : Nat :=
  (fn.blocks.map (fun b => b.instructions.length)).sum

/-- The Run loop of DeadCodeEliminationPass iterates until no change;
every modifying iteration strictly shrinks the instruction count plus
the block count, which bounds the iteration count and serves as fuel. -/
def dceLoop : Nat → Function → Function
  | 0, fn => fn
  | fuel + 1, fn =>
      let p := dceOnce fn
      if p.2 then dceLoop fuel p.1 else p.1

/-- DeadCodeEliminationPass.Run (never returns an error). -/
def dceRun (fn : Function) : Function :=
  dceLoop (countInstructions fn + fn.blocks.length + 1) fn

/-! ## Optimizer (optimizer.go)

NewOptimizer installs the passes in the order constant folding, then
dead-code elimination; OptimizeFunction runs each pass once in sequence
(the simplified single-shot approach of the code), and Optimize maps
that over the functions of the module.
-/

/-- Optimizer.OptimizeFunction with the default pass list. -/
def optimizeFunction (fn : Function) : Function :=
  dceRun (constantFoldingRun fn)

/-- Optimizer.Optimize over a module. -/
def optimizeModule (m : Module) : Module :=
  { m with functions := m.functions.map optimizeFunction }

/-- Reachability from the entry block along recorded successor edges,
the notion unreachable-block removal is specified against. -/
inductive ReachesD (fn : Function) : Nat → Prop where
  | entry : ReachesD fn fn.entry
  | step {a b : Nat} : ReachesD fn a → b ∈ (fn.blockByIdD a).successors → ReachesD fn b

/-- The arithmetic the folding pass computes for the five arithmetic
operators, as a single table (Go int64 semantics). -/
def goArith (op : BinaryOperator) (x y : Int) : Int :=
  match op with
  | .add => goAdd64 x y
  | .sub => goSub64 x y
  | .mul => goMul64 x y
  | .div => goDiv64 x y
  | .mod => goMod64 x y
  | _ => 0

/-- A temporary destination value for folding examples. -/
def foldDest : Value := { id := 5, type := .int, kind := .temporary }

/-- An integer constant IR value, as the builder creates for literals. -/
def intConstV (n : Int) : Value :=
  { id := -1, type := .int, kind := .constant, constant := .int n }

/-- Temporaries of the module that separates one optimizer run from
two. -/
def idemT1 : Value := { id := 0, type := .int, kind := .temporary }

/-- Second temporary of the same module. -/
def idemT2 : Value := { id := 1, type := .int, kind := .temporary }

/-- A function on which the single-shot optimizer is not idempotent:
the entry block computes t2 = t1 + 1 before the block that defines
t1 = 2 + 3 in block order.  The first run folds only t1; the second run
then folds t2 and dead-code-eliminates the copy of t1. -/
def idemFn : Function :=
  { name := "g", parameters := [], returnType := .int,
    blocks :=
      [ { bid := 0, label := "entry",
          instructions := [.binaryOp .add idemT2 idemT1 (intConstV 1), .jump 1],
          successors := [1], predecessors := [], index := 0 },
        { bid := 1, label := "b2",
          instructions := [.binaryOp .add idemT1 (intConstV 2) (intConstV 3),
                           .ret (some idemT2)],
          successors := [], predecessors := [0], index := 1 } ],
    entry := 0, locals := [], nextValueID := 2 }

/-- The module wrapping `idemFn`. -/
def idemModule : Module := { name := "p", functions := [idemFn] }

/-- A function with an unreachable block: the entry returns, the dead
block also holds a critical Return and points back at the entry, so
after unreachable-block removal the surviving entry still lists the
deleted block among its predecessors. -/
def danglingFn : Function :=
  { name := "h", parameters := [], returnType := .int,
    blocks :=
      [ { bid := 0, label := "entry",
          instructions := [.ret (some (intConstV 1))],
          successors := [], predecessors := [1], index := 0 },
        { bid := 1, label := "dead",
          instructions := [.ret (some (intConstV 2))],
          successors := [0], predecessors := [], index := 1 } ],
    entry := 0, locals := [], nextValueID := 0 }

/-- The potential of one DFS state: one per stack entry plus the
successor weight of every block not yet visited. -/
def dfsPhi (fn : Function) (stack reach : List Nat) : Nat :=
  stack.length
    + ((fn.blocks.filter (fun b => !(reach.contains b.bid))).map
        (fun b => b.successors.length + 1)).sum

/-- A concrete module on which the verifier misses the checks the
specification lists: the entry block ends with a Return yet has a
successor (successors do not match the terminator), and block b1 is a
non-entry block with no predecessor.  Both blocks are terminated and the
entry has no predecessors, which is all Module.Verify looks at. -/
def verifierGapFn : Function :=
  { name := "f", parameters := [], returnType := .int,
    blocks :=
      [ { bid := 0, label := "entry",
          instructions := [.ret (some { id := 0, type := .int, kind := .temporary })],
          successors := [1], predecessors := [], index := 0 },
        { bid := 1, label := "b1",
          instructions := [.ret (some { id := 1, type := .int, kind := .temporary })],
          successors := [], predecessors := [], index := 1 } ],
    entry := 0, locals := [], nextValueID := 2 }

/-- The module wrapping `verifierGapFn`. -/
def verifierGapModule : Module :=
  { name := "p", functions := [verifierGapFn] }

/-- A function whose only block lacks a terminator, used to exhibit the
errors the verifier does report. -/
def noTermFn : Function :=
  { name := "f", parameters := [], returnType := .void,
    blocks := [ { bid := 0, label := "entry", instructions := [] } ],
    entry := 0, locals := [], nextValueID := 0 }

/-- The module wrapping `noTermFn`. -/
def noTermModule : Module :=
  { name := "p", functions := [noTermFn] }

/-- The block ids of the blocks of a function. -/
def Function.bids (f : Function) : List Nat := f.blocks.map (fun b => b.bid)

/-- The successor list of the block with id `x` (empty when absent). -/
def Function.succsOf (f : Function) (x : Nat) : List Nat := (f.blockByIdD x).successors

/-- The predecessor list of the block with id `x` (empty when absent). -/
def Function.predsOf (f : Function) (x : Nat) : List Nat := (f.blockByIdD x).predecessors

/-- A sequence of AddSuccessor calls, applied in order. -/
def Function.applySuccessorCalls (f : Function) (calls : List (Nat × Nat)) : Function :=
  calls.foldl (fun g c => g.addSuccessor c.1 c.2) f

/-- The CFG edge invariant AddSuccessor maintains: for every pair of
blocks, the number of occurrences of `y` in the successor list of `x`
equals the number of occurrences of `x` in the predecessor list of `y`,
and both are at most one. -/
def Function.succPredConsistent (f : Function) : Prop :=
  ∀ x y : Nat, (f.succsOf x).count y = (f.predsOf y).count x
    ∧ (f.succsOf x).count y ≤ 1

/-- Two freshly created blocks, used to witness the AddSuccessor
invariant on a concrete CFG. -/
def addSuccFreshFn : Function :=
  { name := "g", parameters := [], returnType := .void,
    blocks := [ { bid := 0, label := "entry" }, { bid := 1, label := "b1" } ],
    entry := 0, locals := [], nextValueID := 0 }

/-! ## Lexer (internal/lexer)

The lexer works on the raw bytes of the source string; the model keeps
the source as a list of byte values.  Runes are decoded with a model of
utf8.DecodeRuneInString: ASCII decodes to itself with size 1, valid
multi-byte sequences decode to their scalar value with their size, and
every invalid or truncated sequence yields the replacement character
0xFFFD with size 1 (size 0 on empty input), exactly as the Go function
does.  unicode.IsLetter is exact on ASCII; above ASCII the
classification is a huge table lookup in the Go runtime, so the model
takes it as an explicit boolean parameter `uni` threaded through the
lexer — every theorem below holds for an arbitrary classifier.  The Go
scanning loops terminate because each iteration consumes at least one
byte; the model passes the dominating bound source-length + 1 as fuel.
-/

/-- The token types of internal/lexer/token.go, in declaration order. -/
inductive TokenType where
  | eof | invalid | comment
  | number | stringLit | charLit | trueLit | falseLit | nilLit
  | identifier
  | ifKw | elseKw | forKw | whileKw | breakKw | continueKw | returnKw
  | switchKw | caseKw | defaultKw
  | funcKw | varKw | constKw | typeKw | structKw | interfaceKw | importKw | packageKw
  | plus | minus | star | slash | percent | starStar
  | equal | notEqual | less | lessEqual | greater | greaterEqual
  | and | or | not
  | bitAnd | bitOr | bitXor | bitNot | shl | shr
  | assign | plusEq | minusEq | starEq | slashEq | percentEq
  | andEq | orEq | xorEq | shlEq | shrEq
  | plusPlus | minusMinus
  | dot | arrow | question | colon | colonColon
  | leftParen | rightParen | leftBrace | rightBrace
  | leftBracket | rightBracket | semicolon | comma | ellipsis
deriving DecidableEq, BEq

/-- Position (filename, 1-based line, 1-based column, byte offset). -/
structure Position where
  filename : String
  line : Nat
  column : Nat
  offset : Nat
deriving DecidableEq

/-- Token: type, lexeme (as source bytes), position, byte length. -/
structure Token where
  type : TokenType
  lexeme : List Nat
  position : Position
  length : Nat
deriving DecidableEq

/-- The lexer state: source bytes, filename, token-start offset, current
offset, 1-based line, and the byte offset where the line starts. -/
structure Lexer where
  source : List Nat
  filename : String
  start : Nat
  current : Nat
  line : Nat
  lineStart : Nat
deriving DecidableEq

/-- utf8.DecodeRuneInString on a byte list: (rune, size).  Empty input
gives (0xFFFD, 0); an invalid or truncated sequence gives (0xFFFD, 1);
a valid sequence gives its scalar value and its length.  The acceptance
windows for the second byte (E0/ED/F0/F4 specials) match Go's
acceptRanges table, which excludes overlong forms, surrogates and
values above U+10FFFF. -/
def decodeRune : List Nat → Nat × Nat
  | [] => (0xFFFD, 0)
  | b0 :: rest =>
      if b0 < 0x80 then (b0, 1)
      else if b0 < 0xC2 || 0xF4 < b0 then (0xFFFD, 1)
      else
        match rest with
        | [] => (0xFFFD, 1)
        | b1 :: rest2 =>
            if b0 < 0xE0 then
              if 0x80 ≤ b1 && b1 ≤ 0xBF then ((b0 - 0xC0) * 64 + (b1 - 0x80), 2)
              else (0xFFFD, 1)
            else if b0 < 0xF0 then
              let lo := if b0 == 0xE0 then 0xA0 else 0x80
              let hi := if b0 == 0xED then 0x9F else 0xBF
              if lo ≤ b1 && b1 ≤ hi then
                match rest2 with
                | b2 :: _ =>
                    if 0x80 ≤ b2 && b2 ≤ 0xBF then
                      ((b0 - 0xE0) * 4096 + (b1 - 0x80) * 64 + (b2 - 0x80), 3)
                    else (0xFFFD, 1)
                | [] => (0xFFFD, 1)
              else (0xFFFD, 1)
            else
              let lo := if b0 == 0xF0 then 0x90 else 0x80
              let hi := if b0 == 0xF4 then 0x8F else 0xBF
              if lo ≤ b1 && b1 ≤ hi then
                match rest2 with
                | b2 :: b3 :: _ =>
                    if 0x80 ≤ b2 && b2 ≤ 0xBF && 0x80 ≤ b3 && b3 ≤ 0xBF then
                      ((b0 - 0xF0) * 262144 + (b1 - 0x80) * 4096
                        + (b2 - 0x80) * 64 + (b3 - 0x80), 4)
                    else (0xFFFD, 1)
                | _ => (0xFFFD, 1)
              else (0xFFFD, 1)

/-- Lexer.isAtEnd. -/
def Lexer.isAtEnd (l : Lexer) : Bool := l.source.length ≤ l.current

/-- Lexer.advance: decode the rune at current, move past it; (0,0) and
no movement at end of input. -/
def Lexer.advance (l : Lexer) : (Nat × Nat) × Lexer :=
  if l.isAtEnd then ((0, 0), l)
  else
    let d := decodeRune (l.source.drop l.current)
    (d, { l with current := l.current + d.2 })

/-- Lexer.peek: the rune at current, 0 at end of input. -/
def Lexer.peek (l : Lexer) : Nat :=
  if l.isAtEnd then 0 else (decodeRune (l.source.drop l.current)).1

/-- Lexer.peekNext: the rune after the current one, 0 if fewer than two
bytes remain. -/
def Lexer.peekNext (l : Lexer) : Nat :=
  if l.source.length ≤ l.current + 1 then 0
  else
    let size := (decodeRune (l.source.drop l.current)).2
    (decodeRune (l.source.drop (l.current + size))).1

/-- Lexer.match: advance past the current rune iff it equals the
expected one. -/
def Lexer.matchRune (l : Lexer) (expected : Nat) : Bool × Lexer :=
  if l.isAtEnd then (false, l)
  else
    let d := decodeRune (l.source.drop l.current)
    if d.1 ≠ expected then (false, l)
    else (true, { l with current := l.current + d.2 })

/-- Lexer.makeToken / Lexer.currentPosition: the column is computed in
BYTES as start - lineStart + 1. -/
def Lexer.makeToken (l : Lexer) (t : TokenType) (lexeme : List Nat) : Token :=
  { type := t, lexeme := lexeme,
    position := { filename := l.filename, line := l.line,
                  column := l.start - l.lineStart + 1, offset := l.start },
    length := l.current - l.start }

/-- isDigit: ASCII decimal digits only. -/
def isDigit (ch : Nat) : Bool := 48 ≤ ch && ch ≤ 57

/-- isLetter: unicode.IsLetter or underscore; exact on ASCII, the
classifier `uni` decides letters above ASCII. -/
def isLetter (uni : Nat → Bool) (ch : Nat) : Bool :=
  (65 ≤ ch && ch ≤ 90) || (97 ≤ ch && ch ≤ 122) || ch == 95
    || (0x80 ≤ ch && uni ch)

/-- The bytes of an ASCII string (used for the keyword table). -/
def strBytes (s : String) : List Nat := s.data.map (fun c => c.toNat)

/-- LookupKeyword over the keywords map of token.go. -/
def lookupKeyword (text : List Nat) : TokenType :=
  if text = strBytes "if" then .ifKw
  else if text = strBytes "else" then .elseKw
  else if text = strBytes "for" then .forKw
  else if text = strBytes "while" then .whileKw
  else if text = strBytes "break" then .breakKw
  else if text = strBytes "continue" then .continueKw
  else if text = strBytes "return" then .returnKw
  else if text = strBytes "switch" then .switchKw
  else if text = strBytes "case" then .caseKw
  else if text = strBytes "default" then .defaultKw
  else if text = strBytes "func" then .funcKw
  else if text = strBytes "var" then .varKw
  else if text = strBytes "const" then .constKw
  else if text = strBytes "type" then .typeKw
  else if text = strBytes "struct" then .structKw
  else if text = strBytes "interface" then .interfaceKw
  else if text = strBytes "import" then .importKw
  else if text = strBytes "package" then .packageKw
  else if text = strBytes "true" then .trueLit
  else if text = strBytes "false" then .falseLit
  else if text = strBytes "nil" then .nilLit
  else .identifier

/-- The lexeme slice source[start:current]. -/
def Lexer.text (l : Lexer) : List Nat :=
  (l.source.drop l.start).take (l.current - l.start)

/-- Lexer.skipWhitespace: skip blanks, tabs and carriage returns; a
newline additionally bumps the line and resets lineStart to the offset
after the newline byte. -/
def skipWhitespace : Nat → Lexer → Lexer
  | 0, l => l
  | fuel + 1, l =>
      if l.isAtEnd then l
      else
        let ch := l.peek
        if ch == 32 || ch == 13 || ch == 9 then
          skipWhitespace fuel (l.advance).2
        else if ch == 10 then
          let l2 := (l.advance).2
          skipWhitespace fuel { l2 with line := l2.line + 1, lineStart := l2.current }
        else l

/-- The identifier loop of Lexer.scanIdentifier. -/
def scanIdentLoop (uni : Nat → Bool) : Nat → Lexer → Lexer
  | 0, l => l
  | fuel + 1, l =>
      if l.isAtEnd then l
      else if isLetter uni l.peek || isDigit l.peek then
        scanIdentLoop uni fuel (l.advance).2
      else l

/-- Lexer.scanIdentifier: scan the identifier body and classify keywords. -/
def scanIdentifier (uni : Nat → Bool) (fuel : Nat) (l : Lexer) : Token × Lexer :=
  let l2 := scanIdentLoop uni fuel l
  (l2.makeToken (lookupKeyword l2.text) l2.text, l2)

/-- The digit-scanning loops of Lexer.scanNumber. -/
def scanDigitsLoop : Nat → Lexer → Lexer
  | 0, l => l
  | fuel + 1, l =>
      if !l.isAtEnd && isDigit l.peek then scanDigitsLoop fuel (l.advance).2 else l

/-- Lexer.scanNumber: integer part, optional fraction (guarded against
ellipsis and member access via peekNext), optional exponent with
backtracking when no digit follows. -/
def scanNumber (fuel : Nat) (l : Lexer) : (Token × Option String) × Lexer :=
  let l1 := scanDigitsLoop fuel l
  let l2 :=
    if !l1.isAtEnd && l1.peek == 46 then
      if l1.peekNext ≠ 46 && isDigit l1.peekNext then
        scanDigitsLoop fuel (l1.advance).2
      else l1
    else l1
  let l3 :=
    if !l2.isAtEnd && (l2.peek == 101 || l2.peek == 69) then
      let saved := l2.current
      let la := (l2.advance).2
      let lb := if !la.isAtEnd && (la.peek == 43 || la.peek == 45) then (la.advance).2 else la
      if lb.isAtEnd || !isDigit lb.peek then { lb with current := saved }
      else scanDigitsLoop fuel lb
    else l2
  ((l3.makeToken .number l3.text, none), l3)

/-- Lexer.scanString: scan to the closing quote; a newline or the end of
input yields an Invalid token with an error. -/
def scanString : Nat → Lexer → (Token × Option String) × Lexer
  | 0, l => ((l.makeToken .invalid [], some "unterminated string literal"), l)
  | fuel + 1, l =>
      if l.isAtEnd then ((l.makeToken .invalid [], some "unterminated string literal"), l)
      else
        let ch := l.peek
        if ch == 34 then
          let l2 := (l.advance).2
          ((l2.makeToken .stringLit l2.text, none), l2)
        else if ch == 10 then
          ((l.makeToken .invalid [], some "unterminated string literal"), l)
        else if ch == 92 then
          let l2 := (l.advance).2
          let l3 := if !l2.isAtEnd then (l2.advance).2 else l2
          scanString fuel l3
        else scanString fuel (l.advance).2

/-- Lexer.scanChar: one (possibly escaped) character between single
quotes; anything else yields an Invalid token with an error. -/
def scanChar (l : Lexer) : (Token × Option String) × Lexer :=
  if l.isAtEnd then ((l.makeToken .invalid [], some "unterminated character literal"), l)
  else if l.peek == 10 then
    ((l.makeToken .invalid [], some "unterminated character literal"), l)
  else
    let l2 :=
      if l.peek == 92 then
        let la := (l.advance).2
        if !la.isAtEnd then (la.advance).2 else la
      else (l.advance).2
    if l2.isAtEnd || l2.peek ≠ 39 then
      ((l2.makeToken .invalid [], some "unterminated character literal"), l2)
    else
      let l3 := (l2.advance).2
      ((l3.makeToken .charLit l3.text, none), l3)

/-- The loop of Lexer.scanLineComment. -/
def scanLineCommentLoop : Nat → Lexer → Lexer
  | 0, l => l
  | fuel + 1, l =>
      if !l.isAtEnd && l.peek ≠ 10 then scanLineCommentLoop fuel (l.advance).2 else l

/-- Lexer.scanLineComment. -/
def scanLineComment (fuel : Nat) (l : Lexer) : Token × Lexer :=
  let l2 := scanLineCommentLoop fuel l
  (l2.makeToken .comment l2.text, l2)

/-- The nesting loop of Lexer.scanBlockComment; on a newline lineStart
is set to current + 1 before advancing. -/
def scanBlockCommentLoop : Nat → Lexer → Nat → Lexer × Nat
  | 0, l, depth => (l, depth)
  | fuel + 1, l, depth =>
      if !l.isAtEnd && 0 < depth then
        let ch := l.peek
        if ch == 47 && l.peekNext == 42 then
          scanBlockCommentLoop fuel ((((l.advance).2).advance).2) (depth + 1)
        else if ch == 42 && l.peekNext == 47 then
          scanBlockCommentLoop fuel ((((l.advance).2).advance).2) (depth - 1)
        else
          let l2 :=
            if ch == 10 then { l with line := l.line + 1, lineStart := l.current + 1 }
            else l
          scanBlockCommentLoop fuel ((l2.advance).2) depth
      else (l, depth)

/-- Lexer.scanBlockComment. -/
def scanBlockComment (fuel : Nat) (l : Lexer) : (Token × Option String) × Lexer :=
  let p := scanBlockCommentLoop fuel l 1
  if 0 < p.2 then ((p.1.makeToken .invalid [], some "unterminated block comment"), p.1)
  else ((p.1.makeToken .comment p.1.text, none), p.1)

/-- The operator/delimiter switch of Lexer.NextToken, dispatching on
the already-consumed first rune ch; the state l2 is the lexer just past
that rune.  (The switch of part_008, lines 131-280.) -/
def nextTokenOp (fuel : Nat) (ch : Nat) (l2 : Lexer) : (Token × Option String) × Lexer :=
  if ch == 40 then ((l2.makeToken .leftParen [40], none), l2)
  else if ch == 41 then ((l2.makeToken .rightParen [41], none), l2)
  else if ch == 123 then ((l2.makeToken .leftBrace [123], none), l2)
  else if ch == 125 then ((l2.makeToken .rightBrace [125], none), l2)
  else if ch == 91 then ((l2.makeToken .leftBracket [91], none), l2)
  else if ch == 93 then ((l2.makeToken .rightBracket [93], none), l2)
  else if ch == 59 then ((l2.makeToken .semicolon [59], none), l2)
  else if ch == 44 then ((l2.makeToken .comma [44], none), l2)
  else if ch == 126 then ((l2.makeToken .bitNot [126], none), l2)
  else if ch == 63 then ((l2.makeToken .question [63], none), l2)
  else if ch == 43 then
    let m := l2.matchRune 43
    if m.1 then ((m.2.makeToken .plusPlus [43, 43], none), m.2)
    else
      let m2 := l2.matchRune 61
      if m2.1 then ((m2.2.makeToken .plusEq [43, 61], none), m2.2)
      else ((l2.makeToken .plus [43], none), l2)
  else if ch == 45 then
    let m := l2.matchRune 45
    if m.1 then ((m.2.makeToken .minusMinus [45, 45], none), m.2)
    else
      let m2 := l2.matchRune 61
      if m2.1 then ((m2.2.makeToken .minusEq [45, 61], none), m2.2)
      else
        let m3 := l2.matchRune 62
        if m3.1 then ((m3.2.makeToken .arrow [45, 62], none), m3.2)
        else ((l2.makeToken .minus [45], none), l2)
  else if ch == 42 then
    let m := l2.matchRune 42
    if m.1 then ((m.2.makeToken .starStar [42, 42], none), m.2)
    else
      let m2 := l2.matchRune 61
      if m2.1 then ((m2.2.makeToken .starEq [42, 61], none), m2.2)
      else ((l2.makeToken .star [42], none), l2)
  else if ch == 47 then
    let m := l2.matchRune 47
    if m.1 then
      let p := scanLineComment fuel m.2
      ((p.1, none), p.2)
    else
      let m2 := l2.matchRune 42
      if m2.1 then scanBlockComment fuel m2.2
      else
        let m3 := l2.matchRune 61
        if m3.1 then ((m3.2.makeToken .slashEq [47, 61], none), m3.2)
        else ((l2.makeToken .slash [47], none), l2)
  else if ch == 37 then
    let m := l2.matchRune 61
    if m.1 then ((m.2.makeToken .percentEq [37, 61], none), m.2)
    else ((l2.makeToken .percent [37], none), l2)
  else if ch == 38 then
    let m := l2.matchRune 38
    if m.1 then ((m.2.makeToken .and [38, 38], none), m.2)
    else
      let m2 := l2.matchRune 61
      if m2.1 then ((m2.2.makeToken .andEq [38, 61], none), m2.2)
      else ((l2.makeToken .bitAnd [38], none), l2)
  else if ch == 124 then
    let m := l2.matchRune 124
    if m.1 then ((m.2.makeToken .or [124, 124], none), m.2)
    else
      let m2 := l2.matchRune 61
      if m2.1 then ((m2.2.makeToken .orEq [124, 61], none), m2.2)
      else ((l2.makeToken .bitOr [124], none), l2)
  else if ch == 94 then
    let m := l2.matchRune 61
    if m.1 then ((m.2.makeToken .xorEq [94, 61], none), m.2)
    else ((l2.makeToken .bitXor [94], none), l2)
  else if ch == 61 then
    let m := l2.matchRune 61
    if m.1 then ((m.2.makeToken .equal [61, 61], none), m.2)
    else ((l2.makeToken .assign [61], none), l2)
  else if ch == 33 then
    let m := l2.matchRune 61
    if m.1 then ((m.2.makeToken .notEqual [33, 61], none), m.2)
    else ((l2.makeToken .not [33], none), l2)
  else if ch == 60 then
    let m := l2.matchRune 60
    if m.1 then
      let m2 := m.2.matchRune 61
      if m2.1 then ((m2.2.makeToken .shlEq [60, 60, 61], none), m2.2)
      else ((m.2.makeToken .shl [60, 60], none), m.2)
    else
      let m3 := l2.matchRune 61
      if m3.1 then ((m3.2.makeToken .lessEqual [60, 61], none), m3.2)
      else ((l2.makeToken .less [60], none), l2)
  else if ch == 62 then
    let m := l2.matchRune 62
    if m.1 then
      let m2 := m.2.matchRune 61
      if m2.1 then ((m2.2.makeToken .shrEq [62, 62, 61], none), m2.2)
      else ((m.2.makeToken .shr [62, 62], none), m.2)
    else
      let m3 := l2.matchRune 61
      if m3.1 then ((m3.2.makeToken .greaterEqual [62, 61], none), m3.2)
      else ((l2.makeToken .greater [62], none), l2)
  else if ch == 58 then
    let m := l2.matchRune 58
    if m.1 then ((m.2.makeToken .colonColon [58, 58], none), m.2)
    else ((l2.makeToken .colon [58], none), l2)
  else if ch == 46 then
    let m := l2.matchRune 46
    if m.1 then
      let m2 := m.2.matchRune 46
      if m2.1 then ((m2.2.makeToken .ellipsis [46, 46, 46], none), m2.2)
      else ((m.2.makeToken .dot [46], none), m.2)
    else ((l2.makeToken .dot [46], none), l2)
  else if ch == 34 then scanString fuel l2
  else if ch == 39 then scanChar l2
  else ((l2.makeToken .invalid [], some "unexpected character"), l2)

/-- Lexer.NextToken: skip whitespace, mark the token start, end of
input yields EOF, identifiers and numbers are scanned directly, and
everything else goes through the operator switch. -/
def nextToken (uni : Nat → Bool) (l0 : Lexer) : (Token × Option String) × Lexer :=
  let fuel := l0.source.length + 1
  let l1 := skipWhitespace fuel l0
  let l := { l1 with start := l1.current }
  if l.isAtEnd then ((l.makeToken .eof [], none), l)
  else
    let a := l.advance
    let ch := a.1.1
    let l2 := a.2
    if isLetter uni ch then
      let p := scanIdentifier uni fuel l2
      ((p.1, none), p.2)
    else if isDigit ch then scanNumber fuel l2
    else nextTokenOp fuel ch l2

/-- The initial lexer state of lexer.New. -/
def initLexer (src : List Nat) (fname : String) : Lexer :=
  { source := src, filename := fname, start := 0, current := 0, line := 1, lineStart := 0 }

/-- The token produced by the (n+1)-th call to NextToken, starting from
the given state. -/
def lexFrom (uni : Nat → Bool) : Nat → Lexer → Token
  | 0, l => (nextToken uni l).1.1
  | n + 1, l => lexFrom uni n (nextToken uni l).2

/-- Modelled from the spec: the column contract counts Unicode scalar
values; this counts the scalars of a byte slice by repeated decoding. -/
def runeCountBytes : Nat → List Nat → Nat
  | 0, _ => 0
  | fuel + 1, bytes =>
      if bytes.isEmpty then 0
      else 1 + runeCountBytes fuel (bytes.drop (decodeRune bytes).2)

/-- Modelled from the spec: 1 plus the number of Unicode scalar values
between the start of the line and the start of the token. -/
def specColumn (src : List Nat) (lineStart tokenStart : Nat) : Nat :=
  1 + runeCountBytes src.length ((src.drop lineStart).take (tokenStart - lineStart))

/-- The UTF-8 bytes of the source text quote-CJK4E16-quote-space-x
(a char literal holding one three-byte character, a space, and the
identifier x). -/
def c2Src : List Nat := [39, 228, 184, 150, 39, 32, 120]

/-- The step relation the lexer state makes: the source is unchanged and
the current offset does not move backwards. -/
def GoodStep (l l2 : Lexer) : Prop :=
  l2.source = l.source ∧ l.current ≤ l2.current

/-! ## IR builder (internal/ir/builder.go)

The builder walks the typed AST and emits IR.  The model keeps the AST
shapes of internal/parser/ast restricted to the node kinds the builder
switch handles.  The semantic analyzer is consulted only through
GetExprType and GetScope().Lookup; the model passes those as an
expression-type oracle `ety` and an association-list scope.  Go's
mutual recursion buildStmt/buildExpr is structural on the AST; the
model runs it as one task-encoded function with explicit fuel (any
fuel at least the number of AST nodes reproduces the Go run).  The Go
nil *Value (a void call used as a value) is modelled by `nilValue`.
Error values carry the Go messages without positions.
-/

/-- AST expressions (parser/ast), with operators as lexer token types
exactly as the builder dispatches on them. -/
inductive Expr : Type where
  | binary (operator : TokenType) (left right : Expr) : Expr
  | unary (operator : TokenType) (operand : Expr) (isPostfix : Bool) : Expr
  | literal (value : ConstLit) : Expr
  | identifier (name : String) : Expr
  | call (callee : Expr) (args : List Expr) : Expr
  | assignment (target : Expr) (operator : TokenType) (value : Expr) : Expr

/-- AST statements (parser/ast) handled by the buildStmt switch. -/
inductive Stmt : Type where
  | exprStmt (expression : Expr) : Stmt
  | blockStmt (statements : List Stmt) : Stmt
  | ifStmt (condition : Expr) (thenBranch : Stmt) (elseBranch : Option Stmt) : Stmt
  | whileStmt (condition : Expr) (body : Stmt) : Stmt
  | forStmt (ini : Option Stmt) (condition : Option Expr) (post : Option Stmt)
      (body : Stmt) : Stmt
  | returnStmt (value : Option Expr) : Stmt
  | breakStmt : Stmt
  | continueStmt : Stmt
  | varDecl (names : List String) (hasTy : Bool) (ini : Option Expr) : Stmt

/-- A function declaration: name, parameter names, body. -/
structure FuncDecl where
  name : String
  params : List String
  body : Option Stmt

/-- Symbol kinds the builder distinguishes. -/
inductive SymKind : Type where
  | funcSym : SymKind
  | varSym : SymKind
deriving DecidableEq, BEq

/-- A symbol table entry as the builder reads it. -/
structure SymbolM where
  kind : SymKind
  type : Ty

/-- Association-list lookup (Go map read). -/
def lookupAssoc {α : Type} (l : List (String × α)) (n : String) : Option α :=
  (l.find? (fun p => p.1 == n)).map (fun p => p.2)

/-- The model of Go's nil *Value: stored only where the Go builder
stores a nil pointer (the value of a call with Void type). -/
def nilValue : Value :=
  { id := -2, name := "<nil>", type := .invalid, kind := .temporary }

/-- The single-value result of an expression task. -/
def headValue (l : List Value) : Value := l.headD nilValue

/-- The token-to-operator switch of Builder.buildBinary; none is the
default (error) case. -/
def tokToBinOp : TokenType → Option BinaryOperator
  | .plus => some .add
  | .minus => some .sub
  | .star => some .mul
  | .slash => some .div
  | .percent => some .mod
  | .equal => some .eq
  | .notEqual => some .neq
  | .less => some .lt
  | .lessEqual => some .le
  | .greater => some .gt
  | .greaterEqual => some .ge
  | .bitAnd => some .bitAnd
  | .bitOr => some .bitOr
  | .bitXor => some .bitXor
  | .shl => some .shl
  | .shr => some .shr
  | _ => none

/-- The token-to-operator switch of Builder.buildUnary. -/
def tokToUnOp : TokenType → Option UnaryOperator
  | .minus => some .neg
  | .not => some .not
  | .bitNot => some .bitNot
  | _ => none

/-- The Builder state: the function under construction, the current
block (by id), the name-to-value maps, the break/continue targets and
the accumulated errors. -/
structure Builder where
  fn : Function
  currentBlock : Nat
  namedValues : List (String × Value) := []
  varMap : List (String × Value) := []
  breakTarget : Option Nat := none
  continueTarget : Option Nat := none
  errors : List String := []

/-- Append an instruction to the current block. -/
def Builder.emit (st : Builder) (i : Instruction) : Builder :=
  { st with fn := st.fn.addInstructionAt st.currentBlock i }

/-- IsTerminated of the current block. -/
def Builder.terminated (st : Builder) : Bool :=
  (st.fn.blockByIdD st.currentBlock).isTerminated

/-- The builder work items: the mutual buildStmt/buildExpr recursion of
builder.go encoded as one fueled function. -/
inductive BTask : Type where
  | stmt (s : Stmt) : BTask
  | stmtList (ss : List Stmt) : BTask
  | stmtOpt (s : Option Stmt) : BTask
  | expr (e : Expr) : BTask
  | exprList (es : List Expr) : BTask
  | varNames (names : List String) (hasTy : Bool) (ini : Option Expr) : BTask

/-- buildStmt / buildExpr / buildIf / buildWhile / buildFor /
buildReturn / buildLocalVar / buildBinary / buildUnary / buildLiteral /
buildIdentifier / buildCall / buildAssignment of builder.go, as one
structural recursion over fuel.  Statement tasks return no values;
expression tasks return their single value. -/
def buildTask (scope : List (String × SymbolM)) (ety : Expr → Ty) :
    Nat → Builder → BTask → (List Value × Builder)
  | 0, st, _ => ([], st)
  | fuel + 1, st, t =>
    match t with
    | .stmtList [] => ([], st)
    | .stmtList (s :: rest) =>
        let p := buildTask scope ety fuel st (.stmt s)
        buildTask scope ety fuel p.2 (.stmtList rest)
    | .stmtOpt none => ([], st)
    | .stmtOpt (some s) => buildTask scope ety fuel st (.stmt s)
    | .exprList [] => ([], st)
    | .exprList (e :: rest) =>
        let p := buildTask scope ety fuel st (.expr e)
        let q := buildTask scope ety fuel p.2 (.exprList rest)
        (headValue p.1 :: q.1, q.2)
    | .varNames [] _ _ => ([], st)
    | .varNames (n :: rest) hasTy ini =>
        let varType := if hasTy then Ty.int else Ty.int
        let pv := st.fn.newValue n varType .var
        let alloca := pv.1
        let f2 := { pv.2 with locals := pv.2.locals ++ [alloca] }
        let st1 := { st with fn := f2, namedValues := (n, alloca) :: st.namedValues }
        let st2 :=
          match ini with
          | some e =>
              let p := buildTask scope ety fuel st1 (.expr e)
              p.2.emit (.copy alloca (headValue p.1))
          | none => st1
        buildTask scope ety fuel st2 (.varNames rest hasTy ini)
    | .stmt s =>
      match s with
      | .exprStmt e => ([], (buildTask scope ety fuel st (.expr e)).2)
      | .blockStmt ss => ([], (buildTask scope ety fuel st (.stmtList ss)).2)
      | .ifStmt cond thenB elseB =>
          let pc := buildTask scope ety fuel st (.expr cond)
          let cv := headValue pc.1
          let st1 := pc.2
          let pt := st1.fn.newBasicBlockInFunc "if.then"
          let thenBid := pt.1
          let pe := pt.2.newBasicBlockInFunc "if.end"
          let endBid := pe.1
          let pz :=
            match elseB with
            | some _ => pe.2.newBasicBlockInFunc "if.else"
            | none => (endBid, pe.2)
          let elseBid := pz.1
          let f4 := pz.2.addInstructionAt st1.currentBlock (.branch cv thenBid elseBid)
          let f5 := (f4.addSuccessor st1.currentBlock thenBid).addSuccessor
            st1.currentBlock elseBid
          let st2 := { st1 with fn := f5, currentBlock := thenBid }
          let st3 := (buildTask scope ety fuel st2 (.stmt thenB)).2
          let st4 :=
            if st3.terminated then st3
            else
              let stj := st3.emit (.jump endBid)
              { stj with fn := stj.fn.addSuccessor stj.currentBlock endBid }
          let st6 :=
            match elseB with
            | none => st4
            | some es =>
                let st5 := { st4 with currentBlock := elseBid }
                let stb := (buildTask scope ety fuel st5 (.stmt es)).2
                if stb.terminated then stb
                else
                  let stj := stb.emit (.jump endBid)
                  { stj with fn := stj.fn.addSuccessor stj.currentBlock endBid }
          ([], { st6 with currentBlock := endBid })
      | .whileStmt cond body =>
          let pc := st.fn.newBasicBlockInFunc "while.cond"
          let condBid := pc.1
          let pb := pc.2.newBasicBlockInFunc "while.body"
          let bodyBid := pb.1
          let pe := pb.2.newBasicBlockInFunc "while.end"
          let endBid := pe.1
          let oldBreak := st.breakTarget
          let oldContinue := st.continueTarget
          let f4 := pe.2.addInstructionAt st.currentBlock (.jump condBid)
          let f5 := f4.addSuccessor st.currentBlock condBid
          let st1 := { st with fn := f5, currentBlock := condBid, breakTarget := some endBid, continueTarget := some condBid }
          let pcond := buildTask scope ety fuel st1 (.expr cond)
          let cv := headValue pcond.1
          let st2 := (pcond.2.emit (.branch cv bodyBid endBid))
          let f7 := (st2.fn.addSuccessor st2.currentBlock bodyBid).addSuccessor
            st2.currentBlock endBid
          let st3 := { st2 with fn := f7, currentBlock := bodyBid }
          let st4 := (buildTask scope ety fuel st3 (.stmt body)).2
          let st5 :=
            if st4.terminated then st4
            else
              let stj := st4.emit (.jump condBid)
              { stj with fn := stj.fn.addSuccessor stj.currentBlock condBid }
          ([], { st5 with breakTarget := oldBreak, continueTarget := oldContinue, currentBlock := endBid })
      | .forStmt ini cond post body =>
          let st0 := (buildTask scope ety fuel st (.stmtOpt ini)).2
          let pc := st0.fn.newBasicBlockInFunc "for.cond"
          let condBid := pc.1
          let pb := pc.2.newBasicBlockInFunc "for.body"
          let bodyBid := pb.1
          let pp := pb.2.newBasicBlockInFunc "for.post"
          let postBid := pp.1
          let pe := pp.2.newBasicBlockInFunc "for.end"
          let endBid := pe.1
          let oldBreak := st0.breakTarget
          let oldContinue := st0.continueTarget
          let f5 := pe.2.addInstructionAt st0.currentBlock (.jump condBid)
          let f6 := f5.addSuccessor st0.currentBlock condBid
          let st1 := { st0 with fn := f6, currentBlock := condBid, breakTarget := some endBid, continueTarget := some postBid }
          let st2 :=
            match cond with
            | some c =>
                let pcond := buildTask scope ety fuel st1 (.expr c)
                pcond.2.emit (.branch (headValue pcond.1) bodyBid endBid)
            | none => st1.emit (.jump bodyBid)
          let f7 := (st2.fn.addSuccessor st2.currentBlock bodyBid).addSuccessor
            st2.currentBlock endBid
          let st3 := { st2 with fn := f7, currentBlock := bodyBid }
          let st4 := (buildTask scope ety fuel st3 (.stmt body)).2
          let st5 :=
            if st4.terminated then st4
            else
              let stj := st4.emit (.jump postBid)
              { stj with fn := stj.fn.addSuccessor stj.currentBlock postBid }
          let st6 := { st5 with currentBlock := postBid }
          let st7 := (buildTask scope ety fuel st6 (.stmtOpt post)).2
          let st8 := st7.emit (.jump condBid)
          let f10 := st8.fn.addSuccessor st8.currentBlock condBid
          ([], { st8 with fn := f10, breakTarget := oldBreak, continueTarget := oldContinue, currentBlock := endBid })
      | .returnStmt v =>
          match v with
          | some e =>
              let p := buildTask scope ety fuel st (.expr e)
              ([], p.2.emit (.ret (some (headValue p.1))))
          | none => ([], st.emit (.ret none))
      | .breakStmt =>
          match st.breakTarget with
          | some tgt => ([], st.emit (.jump tgt))
          | none => ([], st)
      | .continueStmt =>
          match st.continueTarget with
          | some tgt => ([], st.emit (.jump tgt))
          | none => ([], st)
      | .varDecl names hasTy ini => buildTask scope ety fuel st (.varNames names hasTy ini)
    | .expr e =>
      let exprType := ety e
      match e with
      | .literal v =>
          ([{ id := -1, type := exprType, kind := .constant, constant := v }], st)
      | .binary opTok left right =>
          let pl := buildTask scope ety fuel st (.expr left)
          let pr := buildTask scope ety fuel pl.2 (.expr right)
          let pt := pr.2.fn.newTemp exprType
          let result := pt.1
          let st1 := { pr.2 with fn := pt.2 }
          match tokToBinOp opTok with
          | none =>
              ([result], { st1 with errors := st1.errors ++ ["unsupported binary operator"] })
          | some op =>
              ([result], st1.emit (.binaryOp op result (headValue pl.1) (headValue pr.1)))
      | .unary opTok operand _ =>
          let po := buildTask scope ety fuel st (.expr operand)
          let pt := po.2.fn.newTemp exprType
          let result := pt.1
          let st1 := { po.2 with fn := pt.2 }
          match tokToUnOp opTok with
          | none =>
              ([result], { st1 with errors := st1.errors ++ ["unsupported unary operator"] })
          | some op =>
              ([result], st1.emit (.unaryOp op result (headValue po.1)))
      | .identifier name =>
          match lookupAssoc st.namedValues name with
          | some val => ([val], st)
          | none =>
              match lookupAssoc scope name with
              | some sym =>
                  if sym.kind == .funcSym then
                    ([{ id := -1, name := name, type := sym.type, kind := .var }], st)
                  else
                    match lookupAssoc st.varMap name with
                    | some val => ([val], st)
                    | none =>
                        let pt := st.fn.newTemp .invalid
                        ([pt.1], { st with fn := pt.2, errors := st.errors ++ ["variable not mapped to IR value"] })
              | none =>
                  let pt := st.fn.newTemp .invalid
                  ([pt.1], { st with fn := pt.2, errors := st.errors ++ ["undefined variable"] })
      | .call callee args =>
          let pf := buildTask scope ety fuel st (.expr callee)
          let pa := buildTask scope ety fuel pf.2 (.exprList args)
          let pr :=
            if Ty.equals exprType .void then ((none : Option Value), pa.2)
            else
              let pt := pa.2.fn.newTemp exprType
              (some pt.1, { pa.2 with fn := pt.2 })
          let st2 := pr.2.emit (.call pr.1 (headValue pf.1) pa.1)
          ([pr.1.getD nilValue], st2)
      | .assignment target _ value =>
          let pv := buildTask scope ety fuel st (.expr value)
          let v := headValue pv.1
          let st1 := pv.2
          match target with
          | .identifier name =>
              match lookupAssoc st1.namedValues name with
              | some tgt => ([tgt], st1.emit (.copy tgt v))
              | none =>
                  match lookupAssoc scope name with
                  | some _ =>
                      match lookupAssoc st1.varMap name with
                      | some tgt => ([tgt], st1.emit (.copy tgt v))
                      | none => ([v], st1)
                  | none => ([v], st1)
          | _ => ([v], st1)

/-- Builder.buildFunction: look the function symbol up, create the
parameter values and the function, build the body, and append the
implicit Return of a Void function to the current block when that block
is not terminated.  A missing symbol (error) or a non-function symbol
type (a Go type-assertion panic) yields none. -/
def buildFunction (scope : List (String × SymbolM)) (ety : Expr → Ty)
    (fuel : Nat) (decl : FuncDecl) : Option (Function × List String) :=
  match lookupAssoc scope decl.name with
  | none => none
  | some sym =>
      match sym.type with
      | .func ps retTy =>
          let params := decl.params.enum.map (fun p =>
            ({ id := Int.ofNat p.1, name := p.2, type := ps.getD p.1 .invalid, kind := .parameter } : Value))
          let fn0 := Function.newFunction decl.name params retTy
          let st0 : Builder :=
            { fn := fn0, currentBlock := 0, namedValues := params.foldl (fun acc v => (v.name, v) :: acc) [] }
          let st2 :=
            match decl.body with
            | none => st0
            | some body =>
                let st1 := (buildTask scope ety fuel st0 (.stmt body)).2
                if Ty.equals retTy .void && !st1.terminated then
                  st1.emit (.ret none)
                else st1
          some (st2.fn, st2.errors)
      | _ => none

/-- The function declaration on which the builder emits past a
terminator: f() void with the body block - return; var x int = 2 -. -/
def c3Decl : FuncDecl :=
  { name := "f", params := [],
    body := some (.blockStmt
      [.returnStmt none,
       .varDecl ["x"] true (some (.literal (.int 2)))]) }

/-- The scope holding f as a void function symbol. -/
def c3Scope : List (String × SymbolM) :=
  [("f", { kind := .funcSym, type := .func [] .void })]

/-- The local value the builder allocates for x. -/
def c3X : Value := { id := 0, name := "x", type := .int, kind := .var }

/-! ## Theorems -/

/-- Boolean equality is symmetric for any lawful BEq instance; helper
for the symmetry of Ty.equals. -/
theorem beqSymm {α : Type} [BEq α] [LawfulBEq α] (a b : α) : (a == b) = (b == a) := by
  by_cases h : a = b
  · subst h; rfl
  · have h2 : ¬ b = a := fun hh => h hh.symm
    simp [h, h2]

mutual

/-- Ty.equals is symmetric on all types, including malformed ones. -/
theorem Ty.equals_symm : (a b : Ty) → Ty.equals a b = Ty.equals b a
  | .invalid, b => by cases b <;> simp [Ty.equals]
  | .void, b => by cases b <;> simp [Ty.equals]
  | .int, b => by cases b <;> simp [Ty.equals]
  | .float, b => by cases b <;> simp [Ty.equals]
  | .bool, b => by cases b <;> simp [Ty.equals]
  | .string, b => by cases b <;> simp [Ty.equals]
  | .char, b => by cases b <;> simp [Ty.equals]
  | .nil, b => by cases b <;> simp [Ty.equals]
  | .array e s, b => by
      cases b <;> simp only [Ty.equals]
      rename_i e2 s2
      rw [Ty.equals_symm e e2, beqSymm s s2]
  | .struct n f, b => by
      cases b <;> simp only [Ty.equals]
      rename_i n2 f2
      rw [Ty.fieldsEqual_symm f f2, beqSymm n n2]
      by_cases h1 : n = ""
      · by_cases h2 : n2 = "" <;> simp [h1, h2]
      · by_cases h2 : n2 = "" <;> simp [h1, h2]
  | .func p r, b => by
      cases b <;> simp only [Ty.equals]
      rename_i p2 r2
      rw [Ty.equals_symm r r2, Ty.paramsEqual_symm p p2]

/-- Symmetry of the struct field comparison. -/
theorem Ty.fieldsEqual_symm : (f g : List (String × Ty)) → Ty.fieldsEqual f g = Ty.fieldsEqual g f
  | [], [] => rfl
  | [], _ :: _ => rfl
  | _ :: _, [] => rfl
  | (n1, t1) :: r1, (n2, t2) :: r2 => by
      simp only [Ty.fieldsEqual]
      rw [Ty.equals_symm t1 t2, Ty.fieldsEqual_symm r1 r2, beqSymm n1 n2]

/-- Symmetry of the parameter comparison. -/
theorem Ty.paramsEqual_symm : (p q : List Ty) → Ty.paramsEqual p q = Ty.paramsEqual q p
  | [], [] => rfl
  | [], _ :: _ => rfl
  | _ :: _, [] => rfl
  | t1 :: r1, t2 :: r2 => by
      simp only [Ty.paramsEqual]
      rw [Ty.equals_symm t1 t2, Ty.paramsEqual_symm r1 r2]

end

mutual

/-- Ty.equals is reflexive on every type with no Invalid component. -/
theorem Ty.equals_refl : (t : Ty) → t.noInvalid = true → t.equals t = true
  | .invalid, h => by simp [Ty.noInvalid] at h
  | .void, _ => rfl
  | .int, _ => rfl
  | .float, _ => rfl
  | .bool, _ => rfl
  | .string, _ => rfl
  | .char, _ => rfl
  | .nil, _ => rfl
  | .array e s, h => by
      simp only [Ty.noInvalid] at h
      simp only [Ty.equals, Ty.equals_refl e h, Bool.and_true]
      simp
  | .struct n f, h => by
      simp only [Ty.noInvalid] at h
      simp only [Ty.equals]
      by_cases h1 : n = ""
      · simp [h1, Ty.fieldsEqual_refl f h]
      · simp [h1]
  | .func p r, h => by
      simp only [Ty.noInvalid, Bool.and_eq_true] at h
      simp only [Ty.equals, Ty.equals_refl r h.1, Ty.paramsEqual_refl p h.2]
      rfl

/-- Reflexivity of the struct field comparison. -/
theorem Ty.fieldsEqual_refl :
    (f : List (String × Ty)) → Ty.fieldsNoInvalid f = true → Ty.fieldsEqual f f = true
  | [], _ => rfl
  | (n, t) :: r, h => by
      simp only [Ty.fieldsNoInvalid, Bool.and_eq_true] at h
      simp only [Ty.fieldsEqual, Ty.equals_refl t h.1, Ty.fieldsEqual_refl r h.2]
      simp

/-- Reflexivity of the parameter comparison. -/
theorem Ty.paramsEqual_refl :
    (p : List Ty) → Ty.paramsNoInvalid p = true → Ty.paramsEqual p p = true
  | [], _ => rfl
  | t :: r, h => by
      simp only [Ty.paramsNoInvalid, Bool.and_eq_true] at h
      simp only [Ty.paramsEqual, Ty.equals_refl t h.1, Ty.paramsEqual_refl r h.2]
      rfl

end

mutual

/-- Ty.equals is transitive on types all of whose struct components are
named.  It is not transitive in general: a named struct equals a
structurally identical anonymous struct, which in turn equals a
differently named struct with the same fields. -/
theorem Ty.equals_trans : (a b c : Ty) →
    a.allNamedStructs = true → b.allNamedStructs = true → c.allNamedStructs = true →
    a.equals b = true → b.equals c = true → a.equals c = true
  | .invalid, b, c, _, _, _, hab, _ => by simp [Ty.equals] at hab
  | .void, b, c, _, _, _, hab, hbc => by
      cases b <;> simp [Ty.equals] at hab; cases c <;> simp [Ty.equals] at hbc ⊢
  | .int, b, c, _, _, _, hab, hbc => by
      cases b <;> simp [Ty.equals] at hab; cases c <;> simp [Ty.equals] at hbc ⊢
  | .float, b, c, _, _, _, hab, hbc => by
      cases b <;> simp [Ty.equals] at hab; cases c <;> simp [Ty.equals] at hbc ⊢
  | .bool, b, c, _, _, _, hab, hbc => by
      cases b <;> simp [Ty.equals] at hab; cases c <;> simp [Ty.equals] at hbc ⊢
  | .string, b, c, _, _, _, hab, hbc => by
      cases b <;> simp [Ty.equals] at hab; cases c <;> simp [Ty.equals] at hbc ⊢
  | .char, b, c, _, _, _, hab, hbc => by
      cases b <;> simp [Ty.equals] at hab; cases c <;> simp [Ty.equals] at hbc ⊢
  | .nil, b, c, _, _, _, hab, hbc => by
      cases b <;> simp [Ty.equals] at hab; cases c <;> simp [Ty.equals] at hbc ⊢
  | .array e s, b, c, ha, hb, hc, hab, hbc => by
      cases b <;> simp [Ty.equals] at hab
      cases c <;> simp [Ty.equals] at hbc ⊢
      rename_i e2 s2 e3 s3
      simp only [Ty.allNamedStructs] at ha hb hc
      exact ⟨hab.1.trans hbc.1, Ty.equals_trans e e2 e3 ha hb hc hab.2 hbc.2⟩
  | .struct n f, b, c, ha, hb, hc, hab, hbc => by
      cases b <;> simp [Ty.equals] at hab
      cases c <;> simp [Ty.equals] at hbc ⊢
      rename_i n2 f2 n3 f3
      simp only [Ty.allNamedStructs, Bool.and_eq_true, bne_iff_ne, ne_eq] at ha hb hc
      rw [if_pos ⟨ha.1, hb.1⟩] at hab
      rw [if_pos ⟨hb.1, hc.1⟩] at hbc
      rw [if_pos ⟨ha.1, hc.1⟩]
      exact hab.trans hbc
  | .func p r, b, c, ha, hb, hc, hab, hbc => by
      cases b <;> simp [Ty.equals] at hab
      cases c <;> simp [Ty.equals] at hbc ⊢
      rename_i p2 r2 p3 r3
      simp only [Ty.allNamedStructs, Bool.and_eq_true] at ha hb hc
      exact ⟨Ty.equals_trans r r2 r3 ha.1 hb.1 hc.1 hab.1 hbc.1,
             Ty.paramsEqual_trans p p2 p3 ha.2 hb.2 hc.2 hab.2 hbc.2⟩

/-- Transitivity of the parameter comparison, under `allNamedStructs`. -/
theorem Ty.paramsEqual_trans : (p q r : List Ty) →
    Ty.paramsAllNamed p = true → Ty.paramsAllNamed q = true → Ty.paramsAllNamed r = true →
    Ty.paramsEqual p q = true → Ty.paramsEqual q r = true → Ty.paramsEqual p r = true
  | [], [], [], _, _, _, _, _ => rfl
  | [], [], _ :: _, _, _, _, _, hbc => by simp [Ty.paramsEqual] at hbc
  | [], _ :: _, _, _, _, _, hab, _ => by simp [Ty.paramsEqual] at hab
  | _ :: _, [], _, _, _, _, hab, _ => by simp [Ty.paramsEqual] at hab
  | _ :: _, _ :: _, [], _, _, _, _, hbc => by simp [Ty.paramsEqual] at hbc
  | t1 :: r1, t2 :: r2, t3 :: r3, ha, hb, hc, hab, hbc => by
      simp only [Ty.paramsAllNamed, Bool.and_eq_true] at ha hb hc
      simp only [Ty.paramsEqual, Bool.and_eq_true] at hab hbc ⊢
      exact ⟨Ty.equals_trans t1 t2 t3 ha.1 hb.1 hc.1 hab.1 hbc.1,
             Ty.paramsEqual_trans r1 r2 r3 ha.2 hb.2 hc.2 hab.2 hbc.2⟩

end

/-- The Invalid type equals nothing, in either direction. -/
theorem Ty.equals_invalid_right (t : Ty) : t.equals .invalid = false := by
  cases t <;> simp [Ty.equals]

/-- The Invalid type is assignable to nothing and nothing is assignable
to it. -/
theorem Ty.assignableTo_invalid_right (t : Ty) : t.assignableTo .invalid = false := by
  cases t <;> simp [Ty.assignableTo, Ty.equals]

/-- Ty.assignableTo is reflexive on every Invalid-free type other than
Void and Nil; Void is assignable to nothing and Nil only to arrays and
structs, so neither is assignable to itself. -/
theorem Ty.assignableTo_refl (t : Ty) (h : t.noInvalid = true)
    (hv : t ≠ .void) (hn : t ≠ .nil) : t.assignableTo t = true := by
  cases t with
  | invalid => simp [Ty.noInvalid] at h
  | void => exact absurd rfl hv
  | nil => exact absurd rfl hn
  | int => rfl
  | float => rfl
  | bool => rfl
  | string => rfl
  | char => rfl
  | array e s => exact Ty.equals_refl (.array e s) h
  | struct n f => exact Ty.equals_refl (.struct n f) h
  | func p r => exact Ty.equals_refl (.func p r) h

/-- C5 counterexample: the claim fails on the code in three independent
places.  AssignableTo is not reflexive on all valid types: Void, a valid
type, is not assignable to itself (VoidType.AssignableTo always returns
false).  Equals is not reflexive on all valid types: an array whose
element type is Invalid is a valid type (it is not the Invalid type) yet
does not equal itself.  Equals is not transitive on valid types: the
named struct P with field x int equals the structurally identical
anonymous struct, the anonymous struct equals the named struct Q with
the same field, but P does not equal Q. -/
theorem C5_counterexample :
    Ty.assignableTo .void .void = false
    ∧ Ty.equals (Ty.array .invalid 3) (Ty.array .invalid 3) = false
    ∧ Ty.equals (Ty.struct "P" [("x", Ty.int)]) (Ty.struct "" [("x", Ty.int)]) = true
    ∧ Ty.equals (Ty.struct "" [("x", Ty.int)]) (Ty.struct "Q" [("x", Ty.int)]) = true
    ∧ Ty.equals (Ty.struct "P" [("x", Ty.int)]) (Ty.struct "Q" [("x", Ty.int)]) = false := by
  exact ⟨rfl, rfl, rfl, rfl, rfl⟩

/-- C5 (amended): Equals is symmetric on all types; Equals is reflexive
on types with no Invalid component; Equals is transitive on types with
no Invalid component all of whose struct components are named;
AssignableTo is reflexive on Invalid-free types other than Void and Nil;
the Invalid type is never equal and never assignable to any type,
including itself, in either direction. -/
theorem C5_type_laws :
    (∀ t u : Ty, t.equals u = u.equals t)
    ∧ (∀ t : Ty, t.noInvalid = true → t.equals t = true)
    ∧ (∀ a b c : Ty, a.allNamedStructs = true → b.allNamedStructs = true →
        c.allNamedStructs = true → a.equals b = true → b.equals c = true →
        a.equals c = true)
    ∧ (∀ t : Ty, t.noInvalid = true → t ≠ .void → t ≠ .nil → t.assignableTo t = true)
    ∧ (∀ t : Ty, Ty.equals .invalid t = false ∧ t.equals .invalid = false ∧
        Ty.assignableTo .invalid t = false ∧ t.assignableTo .invalid = false) :=
  ⟨Ty.equals_symm,
   Ty.equals_refl,
   Ty.equals_trans,
   Ty.assignableTo_refl,
   fun t => ⟨by simp [Ty.equals], Ty.equals_invalid_right t,
             by simp [Ty.assignableTo], Ty.assignableTo_invalid_right t⟩⟩

/-- C1 counterexample: `verifierGapModule` contains a non-entry block
with no predecessor and a block whose successor list does not match its
Return terminator, yet Module.Verify accepts it (returns no errors), so
the verifier does not report a failure for each violation the claim
lists. -/
theorem C1_counterexample :
    Module.verify verifierGapModule = []
    ∧ verifierGapModule.functions = [verifierGapFn]
    ∧ verifierGapFn.blocks.map (fun b => b.bid) = [0, 1]
    ∧ (verifierGapFn.blockByIdD 1).predecessors = []
    ∧ (1 : Nat) ≠ verifierGapFn.entry
    ∧ (verifierGapFn.blockByIdD 0).terminator
        = some (.ret (some { id := 0, type := .int, kind := .temporary }))
    ∧ (verifierGapFn.blockByIdD 0).successors = [1] := by
  refine ⟨rfl, rfl, rfl, rfl, ?_, rfl, rfl⟩
  simp [verifierGapFn]

/-- C1 (amended): Module.Verify performs exactly two checks.  It
accepts a module (returns the empty error list) precisely when, in every
function, every block ends in a terminator and the entry block has no
predecessors; it reports a failure for every unterminated block and for
an entry block with predecessors.  The other four checks the
specification lists (successor consistency, non-entry predecessors, Phi
incoming lists, Call destination against the callee return type) are
not performed, as `C1_counterexample` shows. -/
theorem C1_verifier_checks (m : Module) :
    (m.verify = [] ↔ ∀ fn ∈ m.functions,
        (∀ b ∈ fn.blocks, b.isTerminated = true)
        ∧ (fn.blockByIdD fn.entry).predecessors = [])
    ∧ (∀ fn ∈ m.functions, ∀ b ∈ fn.blocks, b.isTerminated = false →
        VerifyError.noTerminator b.label fn.name ∈ m.verify)
    ∧ (∀ fn ∈ m.functions, (fn.blockByIdD fn.entry).predecessors ≠ [] →
        VerifyError.entryHasPreds fn.name ∈ m.verify) := by
  refine ⟨?_, ?_, ?_⟩
  · simp only [Module.verify, List.flatMap_eq_nil_iff, List.append_eq_nil,
      List.map_eq_nil_iff, List.filter_eq_nil_iff, Bool.not_eq_true', Bool.not_eq_false]
    constructor
    · intro h fn hfn
      obtain ⟨h1, h2⟩ := h fn hfn
      refine ⟨h1, ?_⟩
      by_cases hp : (fn.blockByIdD fn.entry).predecessors.length = 0
      · exact List.length_eq_zero.mp hp
      · simp [bne_iff_ne, hp] at h2
    · intro h fn hfn
      obtain ⟨h1, h2⟩ := h fn hfn
      refine ⟨h1, ?_⟩
      simp [h2]
  · intro fn hfn b hb hterm
    simp only [Module.verify, List.mem_flatMap]
    refine ⟨fn, hfn, List.mem_append_left _ ?_⟩
    simp only [List.mem_map]
    exact ⟨b, List.mem_filter.mpr ⟨hb, by simp [hterm]⟩, rfl⟩
  · intro fn hfn hp
    simp only [Module.verify, List.mem_flatMap]
    refine ⟨fn, hfn, List.mem_append_right _ ?_⟩
    have : (fn.blockByIdD fn.entry).predecessors.length ≠ 0 := by
      intro h0
      exact hp (List.length_eq_zero.mp h0)
    simp [this]

/-- C1 witness: the amended characterisation applied to the concrete
module `noTermModule`, whose only block has no terminator, and to
`verifierGapModule`, which the verifier accepts. -/
theorem C1_verifier_checks_witness :
    VerifyError.noTerminator "entry" "f" ∈ Module.verify noTermModule
    ∧ Module.verify verifierGapModule = [] := by
  constructor
  · have h := (C1_verifier_checks noTermModule).2.1
    exact h noTermFn (by simp [noTermModule])
      { bid := 0, label := "entry", instructions := [] } (by simp [noTermFn]) rfl
  · exact C1_counterexample.1

/-- Membership in the bid list is existence of the block find? locates. -/
theorem Function.mem_bids_iff_find (f : Function) (x : Nat) :
    x ∈ f.bids ↔ (f.blocks.find? (fun b => b.bid == x)).isSome := by
  rw [List.find?_isSome]
  constructor
  · intro h
    obtain ⟨b, hb, hbid⟩ := List.mem_map.mp h
    exact ⟨b, hb, by simp [hbid]⟩
  · rintro ⟨b, hb, hbid⟩
    exact List.mem_map.mpr ⟨b, hb, by simpa using hbid⟩

/-- Dereferencing after a bid-preserving in-place block update: the
block read back is the updated one when the id matches an existing
block, and is unchanged otherwise. -/
theorem Function.blockByIdD_updateBlock (f : Function) (v : Nat) (g : BasicBlock → BasicBlock)
    (hg : ∀ b, (g b).bid = b.bid) (x : Nat) :
    (f.updateBlock v g).blockByIdD x
      = if x = v ∧ x ∈ f.bids then g (f.blockByIdD x) else f.blockByIdD x := by
  have hpred : (fun (b : BasicBlock) => (if b.bid == v then g b else b).bid == x)
      = (fun (b : BasicBlock) => b.bid == x) := by
    funext b
    by_cases h : b.bid == v
    · rw [if_pos h, hg]
    · rw [if_neg h]
  have hmem := Function.mem_bids_iff_find f x
  cases hfind : f.blocks.find? (fun b => b.bid == x) with
  | none =>
      have hx : ¬ (x ∈ f.bids) := by
        rw [hmem, hfind]
        simp
      rw [if_neg (fun hh => hx hh.2)]
      simp only [Function.updateBlock, Function.blockByIdD, List.find?_map]
      rw [show ((fun (b : BasicBlock) => b.bid == x) ∘ fun b => if b.bid == v then g b else b)
            = (fun (b : BasicBlock) => b.bid == x) from hpred]
      rw [hfind]
      rfl
  | some b =>
      have hx : x ∈ f.bids := by
        rw [hmem, hfind]
        rfl
      have hb : f.blockByIdD x = b := by
        simp [Function.blockByIdD, hfind]
      have hbid : b.bid = x := by
        have := List.find?_some hfind
        simpa using this
      have hL : (f.updateBlock v g).blockByIdD x = (if b.bid == v then g b else b) := by
        simp only [Function.updateBlock, Function.blockByIdD, List.find?_map]
        rw [show ((fun (c : BasicBlock) => c.bid == x) ∘ fun c => if c.bid == v then g c else c)
              = (fun (c : BasicBlock) => c.bid == x) from hpred]
        rw [hfind]
        rfl
      rw [hL, hb]
      by_cases hxv : x = v
      · have hbv : (b.bid == v) = true := by rw [hbid, hxv]; simp
        rw [if_pos hbv, if_pos ⟨hxv, hx⟩]
      · have hbv : ¬ ((b.bid == v) = true) := by simp [hbid, hxv]
        rw [if_neg hbv, if_neg (fun hh => hxv hh.1)]

/-- Bid-preserving updates do not change the bid list. -/
theorem Function.bids_updateBlock (f : Function) (v : Nat) (g : BasicBlock → BasicBlock)
    (hg : ∀ b, (g b).bid = b.bid) :
    (f.updateBlock v g).bids = f.bids := by
  simp only [Function.bids, Function.updateBlock, List.map_map]
  apply List.map_congr_left
  intro b _
  simp only [Function.comp]
  split
  · exact hg b
  · rfl

/-- Updating predecessor lists leaves every successor list unchanged. -/
theorem Function.succsOf_update_predAppend (f : Function) (v a x : Nat) :
    (f.updateBlock v (predAppend a)).succsOf x = f.succsOf x := by
  simp only [Function.succsOf,
    Function.blockByIdD_updateBlock f v (predAppend a) (fun c => rfl) x]
  split <;> rfl

/-- Updating successor lists leaves every predecessor list unchanged. -/
theorem Function.predsOf_update_succAppend (f : Function) (v a x : Nat) :
    (f.updateBlock v (succAppend a)).predsOf x = f.predsOf x := by
  simp only [Function.predsOf,
    Function.blockByIdD_updateBlock f v (succAppend a) (fun c => rfl) x]
  split <;> rfl

/-- The successor append lands on the named block when it exists. -/
theorem Function.succsOf_update_succAppend_self (f : Function) (v t : Nat)
    (hv : v ∈ f.bids) :
    (f.updateBlock v (succAppend t)).succsOf v = f.succsOf v ++ [t] := by
  simp only [Function.succsOf,
    Function.blockByIdD_updateBlock f v (succAppend t) (fun c => rfl) v]
  rw [if_pos ⟨by trivial, hv⟩]
  rfl

/-- The successor append touches no other block. -/
theorem Function.succsOf_update_succAppend_frame (f : Function) (v t x : Nat)
    (hx : x ≠ v) :
    (f.updateBlock v (succAppend t)).succsOf x = f.succsOf x := by
  simp only [Function.succsOf,
    Function.blockByIdD_updateBlock f v (succAppend t) (fun c => rfl) x]
  rw [if_neg (fun hh => hx hh.1)]

/-- The predecessor append lands on the named block when it exists. -/
theorem Function.predsOf_update_predAppend_self (f : Function) (v t : Nat)
    (hv : v ∈ f.bids) :
    (f.updateBlock v (predAppend t)).predsOf v = f.predsOf v ++ [t] := by
  simp only [Function.predsOf,
    Function.blockByIdD_updateBlock f v (predAppend t) (fun c => rfl) v]
  rw [if_pos ⟨by trivial, hv⟩]
  rfl

/-- The predecessor append touches no other block. -/
theorem Function.predsOf_update_predAppend_frame (f : Function) (v t x : Nat)
    (hx : x ≠ v) :
    (f.updateBlock v (predAppend t)).predsOf x = f.predsOf x := by
  simp only [Function.predsOf,
    Function.blockByIdD_updateBlock f v (predAppend t) (fun c => rfl) x]
  rw [if_neg (fun hh => hx hh.1)]

/-- AddSuccessor is the identity when the edge is already recorded. -/
theorem Function.addSuccessor_of_mem (f : Function) (a b : Nat)
    (h : b ∈ f.succsOf a) : f.addSuccessor a b = f := by
  have h0 : b ∈ (f.blockByIdD a).successors := h
  simp only [Function.addSuccessor]
  rw [if_pos h0]

/-- AddSuccessor never changes the set of blocks, only two adjacency
lists. -/
theorem Function.bids_addSuccessor (f : Function) (a b : Nat) :
    (f.addSuccessor a b).bids = f.bids := by
  by_cases h : b ∈ (f.blockByIdD a).successors
  · simp only [Function.addSuccessor]
    rw [if_pos h]
  · simp only [Function.addSuccessor]
    rw [if_neg h]
    rw [Function.bids_updateBlock _ b (predAppend a) (fun c => rfl),
        Function.bids_updateBlock _ a (succAppend b) (fun c => rfl)]

/-- After a non-redundant AddSuccessor on an existing source block, the
successor list of the source has the target appended. -/
theorem Function.succsOf_addSuccessor (f : Function) (a b : Nat)
    (h : b ∉ f.succsOf a) (ha : a ∈ f.bids) :
    (f.addSuccessor a b).succsOf a = f.succsOf a ++ [b] := by
  have h0 : b ∉ (f.blockByIdD a).successors := h
  simp only [Function.addSuccessor]
  rw [if_neg h0]
  rw [Function.succsOf_update_predAppend, Function.succsOf_update_succAppend_self f a b ha]

/-- AddSuccessor does not change the successor list of any other block. -/
theorem Function.succsOf_addSuccessor_frame (f : Function) (a b x : Nat)
    (hx : x ≠ a) : (f.addSuccessor a b).succsOf x = f.succsOf x := by
  by_cases h : b ∈ (f.blockByIdD a).successors
  · simp only [Function.addSuccessor]
    rw [if_pos h]
  · simp only [Function.addSuccessor]
    rw [if_neg h]
    rw [Function.succsOf_update_predAppend, Function.succsOf_update_succAppend_frame f a b x hx]

/-- After a non-redundant AddSuccessor towards an existing target block,
the predecessor list of the target has the source appended. -/
theorem Function.predsOf_addSuccessor (f : Function) (a b : Nat)
    (h : b ∉ f.succsOf a) (hb : b ∈ f.bids) :
    (f.addSuccessor a b).predsOf b = f.predsOf b ++ [a] := by
  have h0 : b ∉ (f.blockByIdD a).successors := h
  simp only [Function.addSuccessor]
  rw [if_neg h0]
  have hb1 : b ∈ (f.updateBlock a (succAppend b)).bids := by
    rw [Function.bids_updateBlock _ a (succAppend b) (fun c => rfl)]
    exact hb
  rw [Function.predsOf_update_predAppend_self _ b a hb1,
      Function.predsOf_update_succAppend]

/-- AddSuccessor does not change the predecessor list of any other
block. -/
theorem Function.predsOf_addSuccessor_frame (f : Function) (a b y : Nat)
    (hy : y ≠ b) : (f.addSuccessor a b).predsOf y = f.predsOf y := by
  by_cases h : b ∈ (f.blockByIdD a).successors
  · simp only [Function.addSuccessor]
    rw [if_pos h]
  · simp only [Function.addSuccessor]
    rw [if_neg h]
    rw [Function.predsOf_update_predAppend_frame _ b a y hy,
        Function.predsOf_update_succAppend]

/-- A block id with a nonempty successor list is a real block. -/
theorem Function.mem_bids_of_succsOf_ne_nil (f : Function) (x : Nat)
    (h : f.succsOf x ≠ []) : x ∈ f.bids := by
  rw [Function.mem_bids_iff_find]
  cases hf : f.blocks.find? (fun b => b.bid == x) with
  | none =>
      exfalso
      apply h
      simp [Function.succsOf, Function.blockByIdD, hf]
  | some b => rfl

/-- A block id with a nonempty predecessor list is a real block. -/
theorem Function.mem_bids_of_predsOf_ne_nil (f : Function) (x : Nat)
    (h : f.predsOf x ≠ []) : x ∈ f.bids := by
  rw [Function.mem_bids_iff_find]
  cases hf : f.blocks.find? (fun b => b.bid == x) with
  | none =>
      exfalso
      apply h
      simp [Function.predsOf, Function.blockByIdD, hf]
  | some b => rfl

/-- A function whose blocks are all freshly created (empty adjacency
lists) satisfies the edge invariant. -/
theorem Function.fresh_succPredConsistent (f : Function)
    (hfresh : ∀ b ∈ f.blocks, b.successors = [] ∧ b.predecessors = []) :
    f.succPredConsistent := by
  intro x y
  have hs : f.succsOf x = [] := by
    simp only [Function.succsOf, Function.blockByIdD]
    cases hf : f.blocks.find? (fun b => b.bid == x) with
    | none => rfl
    | some b =>
        simpa using (hfresh b (List.mem_of_find?_eq_some hf)).1
  have hp : f.predsOf y = [] := by
    simp only [Function.predsOf, Function.blockByIdD]
    cases hf : f.blocks.find? (fun b => b.bid == y) with
    | none => rfl
    | some b =>
        simpa using (hfresh b (List.mem_of_find?_eq_some hf)).2
  rw [hs, hp]
  simp

/-- One AddSuccessor call preserves the edge invariant when both blocks
exist. -/
theorem Function.succPredConsistent_addSuccessor (f : Function) (a b : Nat)
    (hInv : f.succPredConsistent) (ha : a ∈ f.bids) (hb : b ∈ f.bids) :
    (f.addSuccessor a b).succPredConsistent := by
  by_cases hmem : b ∈ f.succsOf a
  · rw [Function.addSuccessor_of_mem f a b hmem]
    exact hInv
  · intro x y
    by_cases hx : x = a
    · subst hx
      by_cases hy : y = b
      · subst hy
        rw [Function.succsOf_addSuccessor f x y hmem ha,
            Function.predsOf_addSuccessor f x y hmem hb]
        have h0 : (f.succsOf x).count y = 0 := List.count_eq_zero.mpr hmem
        have h1 : (f.predsOf y).count x = 0 := by
          rw [← (hInv x y).1]
          exact h0
        simp [List.count_append, h0, h1]
      · rw [Function.succsOf_addSuccessor f x b hmem ha,
            Function.predsOf_addSuccessor_frame f x b y hy]
        have := hInv x y
        rw [List.count_append]
        have hyb : ([b] : List Nat).count y = 0 := by
          simp [List.count_eq_zero]
          exact fun hh => hy hh
        omega
    · rw [Function.succsOf_addSuccessor_frame f a b x hx]
      by_cases hy : y = b
      · subst hy
        rw [Function.predsOf_addSuccessor f a y hmem hb]
        have := hInv x y
        rw [List.count_append]
        have hxa : ([a] : List Nat).count x = 0 := by
          simp [List.count_eq_zero]
          exact fun hh => hx hh
        omega
      · rw [Function.predsOf_addSuccessor_frame f a b y hy]
        exact hInv x y

/-- Once an edge occurs exactly once in both adjacency lists, any later
sequence of AddSuccessor calls keeps it occurring exactly once. -/
theorem Function.edge_preserved_calls : (calls : List (Nat × Nat)) → (f : Function) →
    (a b : Nat) → ((f.succsOf a).count b = 1) → ((f.predsOf b).count a = 1) →
    (((f.applySuccessorCalls calls).succsOf a).count b = 1
      ∧ ((f.applySuccessorCalls calls).predsOf b).count a = 1)
  | [], f, a, b, hs, hp => ⟨hs, hp⟩
  | (x, y) :: rest, f, a, b, hs, hp => by
      have happ : f.applySuccessorCalls ((x, y) :: rest)
          = (f.addSuccessor x y).applySuccessorCalls rest := rfl
      rw [happ]
      have hmemb : b ∈ f.succsOf a := by
        have : 0 < (f.succsOf a).count b := by omega
        exact List.count_pos_iff.mp this
      have hs1 : ((f.addSuccessor x y).succsOf a).count b = 1 := by
        by_cases hx : a = x
        · subst hx
          by_cases hy : b = y
          · subst hy
            rw [Function.addSuccessor_of_mem f a b hmemb]
            exact hs
          · by_cases hm : y ∈ f.succsOf a
            · rw [Function.addSuccessor_of_mem f a y hm]
              exact hs
            · have hain : a ∈ f.bids := by
                apply Function.mem_bids_of_succsOf_ne_nil
                intro hnil
                rw [hnil] at hmemb
                simp at hmemb
              rw [Function.succsOf_addSuccessor f a y hm hain, List.count_append]
              have : ([y] : List Nat).count b = 0 := by
                simp [List.count_eq_zero]
                exact fun hh => hy hh
              omega
        · rw [Function.succsOf_addSuccessor_frame f x y a hx]
          exact hs
      have hp1 : ((f.addSuccessor x y).predsOf b).count a = 1 := by
        by_cases hy : b = y
        · subst hy
          by_cases hm : b ∈ f.succsOf x
          · rw [Function.addSuccessor_of_mem f x b hm]
            exact hp
          · by_cases hbin : b ∈ f.bids
            · rw [Function.predsOf_addSuccessor f x b hm hbin, List.count_append]
              have hxa : x ≠ a := by
                intro hh
                subst hh
                exact hm hmemb
              have : ([x] : List Nat).count a = 0 := by
                simp [List.count_eq_zero]
                exact fun hh => hxa hh.symm
              omega
            · have : b ∈ f.bids := by
                apply Function.mem_bids_of_predsOf_ne_nil
                intro hnil
                rw [hnil] at hp
                simp at hp
              exact absurd this hbin
        · rw [Function.predsOf_addSuccessor_frame f x y b hy]
          exact hp
      exact Function.edge_preserved_calls rest (f.addSuccessor x y) a b hs1 hp1

/-- After any sequence of AddSuccessor calls on a fresh CFG, every
requested edge is recorded exactly once in both directions. -/
theorem Function.applyCalls_count_one : (calls : List (Nat × Nat)) → (f : Function) →
    f.succPredConsistent → (∀ c ∈ calls, c.1 ∈ f.bids ∧ c.2 ∈ f.bids) →
    ∀ c ∈ calls,
      (((f.applySuccessorCalls calls).succsOf c.1).count c.2 = 1
        ∧ ((f.applySuccessorCalls calls).predsOf c.2).count c.1 = 1)
  | [], f, _, _ => by intro c hc; simp at hc
  | (a, b) :: rest, f, hInv, hin => by
      have ha : a ∈ f.bids := (hin (a, b) (List.mem_cons_self _ _)).1
      have hb : b ∈ f.bids := (hin (a, b) (List.mem_cons_self _ _)).2
      have happ : f.applySuccessorCalls ((a, b) :: rest)
          = (f.addSuccessor a b).applySuccessorCalls rest := rfl
      have hInv1 := Function.succPredConsistent_addSuccessor f a b hInv ha hb
      have hbids1 := Function.bids_addSuccessor f a b
      have hin1 : ∀ c ∈ rest, c.1 ∈ (f.addSuccessor a b).bids
          ∧ c.2 ∈ (f.addSuccessor a b).bids := by
        intro c hc
        rw [hbids1]
        exact hin c (List.mem_cons_of_mem _ hc)
      intro c hc
      rcases List.mem_cons.mp hc with hceq | hcrest
      · subst hceq
        rw [happ]
        have h1 : ((f.addSuccessor a b).succsOf a).count b = 1
            ∧ ((f.addSuccessor a b).predsOf b).count a = 1 := by
          by_cases hmem : b ∈ f.succsOf a
          · rw [Function.addSuccessor_of_mem f a b hmem]
            have h2 := hInv a b
            have hpos : 0 < (f.succsOf a).count b := List.count_pos_iff.mpr hmem
            constructor
            · omega
            · rw [← h2.1]
              omega
          · rw [Function.succsOf_addSuccessor f a b hmem ha,
                Function.predsOf_addSuccessor f a b hmem hb]
            have h0 : (f.succsOf a).count b = 0 := List.count_eq_zero.mpr hmem
            have h1 : (f.predsOf b).count a = 0 := by
              rw [← (hInv a b).1]
              exact h0
            simp [List.count_append, h0, h1]
        exact Function.edge_preserved_calls rest (f.addSuccessor a b) a b h1.1 h1.2
      · rw [happ]
        exact Function.applyCalls_count_one rest (f.addSuccessor a b) hInv1 hin1 c hcrest

/-- C9: starting from freshly created blocks, after any sequence of
AddSuccessor calls, each called pair (b, s) has s occurring exactly once
in the successor list of b and b occurring exactly once in the
predecessor list of s: AddSuccessor is idempotent and keeps the two
adjacency lists mutually consistent and duplicate-free. -/
theorem C9_addSuccessor_exactly_once (f0 : Function)
    (hfresh : ∀ b ∈ f0.blocks, b.successors = [] ∧ b.predecessors = [])
    (calls : List (Nat × Nat))
    (hin : ∀ c ∈ calls, c.1 ∈ f0.bids ∧ c.2 ∈ f0.bids) :
    ∀ c ∈ calls,
      (((f0.applySuccessorCalls calls).succsOf c.1).count c.2 = 1
        ∧ ((f0.applySuccessorCalls calls).predsOf c.2).count c.1 = 1) :=
  Function.applyCalls_count_one calls f0
    (Function.fresh_succPredConsistent f0 hfresh) hin

/-- C9 witness: two identical AddSuccessor calls on a fresh two-block
CFG leave exactly one copy of the edge in each adjacency list. -/
theorem C9_addSuccessor_exactly_once_witness :
    ((addSuccFreshFn.applySuccessorCalls [(0, 1), (0, 1)]).succsOf 0).count 1 = 1
    ∧ ((addSuccFreshFn.applySuccessorCalls [(0, 1), (0, 1)]).predsOf 1).count 0 = 1 := by
  refine C9_addSuccessor_exactly_once addSuccFreshFn ?_ [(0, 1), (0, 1)] ?_ (0, 1) (by simp)
  · intro b hb
    simp only [addSuccFreshFn, List.mem_cons, List.not_mem_nil, or_false] at hb
    rcases hb with h | h <;> subst h <;> exact ⟨rfl, rfl⟩
  · intro c hc
    simp only [List.mem_cons, List.not_mem_nil, or_false] at hc
    rcases hc with h | h <;> subst h <;>
      simp [addSuccFreshFn, Function.bids]

/-- Summing a weight over a filter with a stronger predicate gives at
most the sum over the weaker one. -/
theorem sum_filter_mono (l : List BasicBlock) (w : BasicBlock → Nat)
    (q p : BasicBlock → Bool) (hqp : ∀ b, q b = true → p b = true) :
    ((l.filter q).map w).sum ≤ ((l.filter p).map w).sum := by
  induction l with
  | nil => simp
  | cons b rest ih =>
      by_cases hq : q b
      · rw [List.filter_cons_of_pos hq, List.filter_cons_of_pos (hqp b hq)]
        simpa using Nat.add_le_add_left ih (w b)
      · rw [List.filter_cons_of_neg hq]
        by_cases hp : p b
        · rw [List.filter_cons_of_pos hp]
          simp only [List.map_cons, List.sum_cons]
          omega
        · rw [List.filter_cons_of_neg hp]
          exact ih

/-- Visiting a fresh node removes its whole weight from the unvisited
sum: the tightened filter sum plus the weight of the first block with
the visited id is bounded by the original filter sum. -/
theorem sum_filter_tighten (l : List BasicBlock) (w : BasicBlock → Nat)
    (reach : List Nat) (cur : Nat) (hcur : reach.contains cur = false) :
    ((l.filter (fun b => !((cur :: reach).contains b.bid))).map w).sum
      + (match l.find? (fun b => b.bid == cur) with
         | some B => w B
         | none => 0)
    ≤ ((l.filter (fun b => !(reach.contains b.bid))).map w).sum := by
  induction l with
  | nil => simp
  | cons b rest ih =>
      by_cases hb : b.bid = cur
      · have hfind : (b :: rest).find? (fun b => b.bid == cur) = some b :=
          List.find?_cons_of_pos _ (by simp [hb])
        rw [hfind]
        have hc1 : ((cur :: reach).contains b.bid) = true := by
          rw [List.contains_cons]
          simp [hb]
        have hc2 : (reach.contains b.bid) = false := by rw [hb]; exact hcur
        rw [List.filter_cons_of_neg (by rw [hc1]; simp),
            List.filter_cons_of_pos (by rw [hc2]; rfl)]
        simp only [List.map_cons, List.sum_cons]
        have hmono := sum_filter_mono rest w
          (fun b => !((cur :: reach).contains b.bid))
          (fun b => !(reach.contains b.bid))
          (by
            intro c hc
            simp only [List.contains_cons, Bool.not_eq_true',
              Bool.or_eq_false_iff] at hc
            show (!reach.contains c.bid) = true
            rw [hc.2]
            rfl)
        omega
      · have hfind : (b :: rest).find? (fun b => b.bid == cur)
            = rest.find? (fun b => b.bid == cur) :=
          List.find?_cons_of_neg _ (by simp [hb])
        rw [hfind]
        have hceq : ((cur :: reach).contains b.bid) = (reach.contains b.bid) := by
          rw [List.contains_cons]
          have : (b.bid == cur) = false := by simp [hb]
          rw [this]
          simp
        by_cases hc2 : (reach.contains b.bid) = true
        · rw [List.filter_cons_of_neg (by rw [hceq, hc2]; simp),
              List.filter_cons_of_neg (by rw [hc2]; simp)]
          exact ih
        · have hc2f : (reach.contains b.bid) = false := by
            cases h : reach.contains b.bid
            · rfl
            · exact absurd h hc2
          rw [List.filter_cons_of_pos (by rw [hceq, hc2f]; rfl),
              List.filter_cons_of_pos (by rw [hc2f]; rfl)]
          simp only [List.map_cons, List.sum_cons]
          omega

/-- Popping an unvisited node strictly decreases the DFS potential. -/
theorem dfsPhi_step (fn : Function) (cur : Nat) (rest reach : List Nat)
    (hcur : reach.contains cur = false) :
    dfsPhi fn
        ((((fn.blockByIdD cur).successors).filter
            (fun s => !((cur :: reach).contains s))).reverse ++ rest)
        (cur :: reach)
      < dfsPhi fn (cur :: rest) reach := by
  have hlen : ((((fn.blockByIdD cur).successors).filter
      (fun s => !((cur :: reach).contains s))).reverse).length
        ≤ ((fn.blockByIdD cur).successors).length := by
    rw [List.length_reverse]
    exact List.length_filter_le _ _
  have htight := sum_filter_tighten fn.blocks (fun b => b.successors.length + 1) reach cur hcur
  simp only [dfsPhi, List.length_append, List.length_cons]
  cases hfind : fn.blocks.find? (fun b => b.bid == cur) with
  | none =>
      have hdefault : (fn.blockByIdD cur).successors = [] := by
        simp [Function.blockByIdD, hfind]
      rw [hfind] at htight
      have ht2 : ((fn.blocks.filter (fun b => !((cur :: reach).contains b.bid))).map
          (fun b => b.successors.length + 1)).sum
            ≤ ((fn.blocks.filter (fun b => !(reach.contains b.bid))).map
              (fun b => b.successors.length + 1)).sum := by
        simpa using htight
      rw [hdefault]
      simp only [List.filter_nil, List.reverse_nil, List.length_nil]
      omega
  | some B =>
      have hB : fn.blockByIdD cur = B := by
        simp [Function.blockByIdD, hfind]
      rw [hfind] at htight
      have ht2 : ((fn.blocks.filter (fun b => !((cur :: reach).contains b.bid))).map
          (fun b => b.successors.length + 1)).sum + (B.successors.length + 1)
            ≤ ((fn.blocks.filter (fun b => !(reach.contains b.bid))).map
              (fun b => b.successors.length + 1)).sum := htight
      rw [hB] at hlen ⊢
      omega

/-- The fueled DFS, given fuel that dominates the potential and a
visited set whose successors all sit in the visited set or on the
stack, visits everything already visited, everything on the stack, and
a set closed under successor edges. -/
theorem dfs_spec (fn : Function) : ∀ (fuel : Nat) (stack reach : List Nat),
    dfsPhi fn stack reach ≤ fuel →
    (∀ v ∈ reach, ∀ s ∈ (fn.blockByIdD v).successors, s ∈ reach ∨ s ∈ stack) →
    (∀ v ∈ reach, v ∈ dfsReachable fn fuel stack reach)
    ∧ (∀ v ∈ stack, v ∈ dfsReachable fn fuel stack reach)
    ∧ (∀ v ∈ dfsReachable fn fuel stack reach, ∀ s ∈ (fn.blockByIdD v).successors,
        s ∈ dfsReachable fn fuel stack reach)
  | 0, stack, reach => by
      intro hphi hcl
      have hstack : stack = [] := by
        have : stack.length = 0 := by
          have : stack.length ≤ dfsPhi fn stack reach := by
            simp [dfsPhi]
          omega
        exact List.length_eq_zero.mp this
      subst hstack
      refine ⟨fun v hv => hv, fun v hv => by simp at hv, ?_⟩
      intro v hv s hs
      rcases hcl v hv s hs with h | h
      · exact h
      · simp at h
  | fuel + 1, stack, reach => by
      intro hphi hcl
      cases stack with
      | nil =>
          refine ⟨fun v hv => hv, fun v hv => by simp at hv, ?_⟩
          intro v hv s hs
          rcases hcl v hv s hs with h | h
          · exact h
          · simp at h
      | cons cur rest =>
          by_cases hc : cur ∈ reach
          · have hunfold : dfsReachable fn (fuel + 1) (cur :: rest) reach
                = dfsReachable fn fuel rest reach := by
              simp [dfsReachable, hc]
            have hphi2 : dfsPhi fn rest reach ≤ fuel := by
              simp only [dfsPhi, List.length_cons] at hphi ⊢
              omega
            have hcl2 : ∀ v ∈ reach, ∀ s ∈ (fn.blockByIdD v).successors,
                s ∈ reach ∨ s ∈ rest := by
              intro v hv s hs
              rcases hcl v hv s hs with h | h
              · exact Or.inl h
              · rcases List.mem_cons.mp h with h2 | h2
                · subst h2
                  exact Or.inl hc
                · exact Or.inr h2
            obtain ⟨hA, hB, hC⟩ := dfs_spec fn fuel rest reach hphi2 hcl2
            rw [hunfold]
            refine ⟨hA, ?_, hC⟩
            intro v hv
            rcases List.mem_cons.mp hv with h2 | h2
            · subst h2
              exact hA v hc
            · exact hB v h2
          · have hcb : reach.contains cur = false := by
              simpa using hc
            have hunfold : dfsReachable fn (fuel + 1) (cur :: rest) reach
                = dfsReachable fn fuel
                    ((((fn.blockByIdD cur).successors).filter
                        (fun s => !((cur :: reach).contains s))).reverse ++ rest)
                    (cur :: reach) := by
              simp only [dfsReachable]
              rw [if_neg hc]
            have hphi2 : dfsPhi fn
                ((((fn.blockByIdD cur).successors).filter
                    (fun s => !((cur :: reach).contains s))).reverse ++ rest)
                (cur :: reach) ≤ fuel := by
              have := dfsPhi_step fn cur rest reach hcb
              omega
            have hcl2 : ∀ v ∈ cur :: reach, ∀ s ∈ (fn.blockByIdD v).successors,
                s ∈ (cur :: reach)
                  ∨ s ∈ ((((fn.blockByIdD cur).successors).filter
                      (fun s => !((cur :: reach).contains s))).reverse ++ rest) := by
              intro v hv s hs
              rcases List.mem_cons.mp hv with h2 | h2
              · by_cases hsm : s ∈ (cur :: reach)
                · exact Or.inl hsm
                · refine Or.inr (List.mem_append_left _ ?_)
                  rw [List.mem_reverse]
                  refine List.mem_filter.mpr ⟨h2 ▸ hs, ?_⟩
                  simpa using hsm
              · rcases hcl v h2 s hs with h3 | h3
                · exact Or.inl (List.mem_cons_of_mem _ h3)
                · rcases List.mem_cons.mp h3 with h4 | h4
                  · rw [h4]
                    exact Or.inl (List.mem_cons_self _ _)
                  · exact Or.inr (List.mem_append_right _ h4)
            obtain ⟨hA, hB, hC⟩ := dfs_spec fn fuel _ _ hphi2 hcl2
            rw [hunfold]
            refine ⟨?_, ?_, hC⟩
            · intro v hv
              exact hA v (List.mem_cons_of_mem _ hv)
            · intro v hv
              rcases List.mem_cons.mp hv with h2 | h2
              · subst h2
                exact hA v (List.mem_cons_self _ _)
              · exact hB v (List.mem_append_right _ h2)

/-- Every block reachable from the entry is visited by the DFS of
removeUnreachableBlocks. -/
theorem reachesD_mem_dfs (fn : Function) (v : Nat) (hv : ReachesD fn v) :
    v ∈ dfsReachable fn (dfsFuel fn) [fn.entry] [] := by
  have hphi : dfsPhi fn [fn.entry] [] ≤ dfsFuel fn := by
    simp only [dfsPhi, dfsFuel, List.length_cons, List.length_nil]
    have : (fn.blocks.filter (fun b => !(([] : List Nat).contains b.bid))) = fn.blocks := by
      simp
    rw [this]
    omega
  have hcl : ∀ w ∈ ([] : List Nat), ∀ s ∈ (fn.blockByIdD w).successors,
      s ∈ ([] : List Nat) ∨ s ∈ [fn.entry] := by
    intro w hw
    simp at hw
  obtain ⟨hA, hB, hC⟩ := dfs_spec fn (dfsFuel fn) [fn.entry] [] hphi hcl
  induction hv with
  | entry => exact hB fn.entry (List.mem_cons_self _ _)
  | step ha hs ih => exact hC _ ih _ hs

/-- find? by bid commutes with a bid-preserving map. -/
theorem find?_bid_map (l : List BasicBlock) (g : BasicBlock → BasicBlock)
    (hg : ∀ b, (g b).bid = b.bid) (x : Nat) :
    (l.map g).find? (fun b => b.bid == x) = (l.find? (fun b => b.bid == x)).map g := by
  rw [List.find?_map]
  have hp : ((fun (b : BasicBlock) => b.bid == x) ∘ g)
      = (fun (b : BasicBlock) => b.bid == x) := by
    funext b
    show ((g b).bid == x) = (b.bid == x)
    rw [hg]
  rw [hp]

/-- The sweep leaves each block with its instructions filtered by the
keep test. -/
theorem ru_instructions (fn : Function) (used : List Value) (x : Nat) :
    (((removeUnusedInstructions fn used).1).blockByIdD x).instructions
      = ((fn.blockByIdD x).instructions).filter (dceKeep used) := by
  simp only [removeUnusedInstructions, Function.blockByIdD]
  rw [find?_bid_map fn.blocks
    (fun b => { b with instructions := b.instructions.filter (dceKeep used) })
    (fun b => rfl) x]
  cases hf : fn.blocks.find? (fun b => b.bid == x) <;> simp [hf]

/-- The sweep does not touch successor lists. -/
theorem ru_successors (fn : Function) (used : List Value) (x : Nat) :
    (((removeUnusedInstructions fn used).1).blockByIdD x).successors
      = (fn.blockByIdD x).successors := by
  simp only [removeUnusedInstructions, Function.blockByIdD]
  rw [find?_bid_map fn.blocks
    (fun b => { b with instructions := b.instructions.filter (dceKeep used) })
    (fun b => rfl) x]
  cases hf : fn.blocks.find? (fun b => b.bid == x) <;> simp [hf]

/-- Reachability transfers to a function with the same entry and, on
reachable ids, the same successor lists. -/
theorem reachesD_transfer (f1 f2 : Function) (he : f2.entry = f1.entry)
    (hs : ∀ v, ReachesD f1 v →
      (f2.blockByIdD v).successors = (f1.blockByIdD v).successors) :
    ∀ v, ReachesD f1 v → ReachesD f2 v := by
  intro v hv
  induction hv with
  | entry =>
      have h : ReachesD f2 f2.entry := ReachesD.entry
      rwa [he] at h
  | step ha hedge ih =>
      rename_i a b
      exact ReachesD.step ih (by rw [hs a ha]; exact hedge)

/-- Unreachable-block removal never changes the entry pointer. -/
theorem rub_entry (fn : Function) : (removeUnreachableBlocks fn).1.entry = fn.entry := by
  simp only [removeUnreachableBlocks]
  split <;> rfl

/-- The second components of an enumerated list are its elements (first
match), as seen through find?. -/
theorem snd_find?_enumFrom (P : BasicBlock → Bool) :
    ∀ (n : Nat) (l : List BasicBlock),
      Option.map (fun q => q.2) ((l.enumFrom n).find? (fun q => P q.2)) = l.find? P := by
  intro n l
  induction l generalizing n with
  | nil => rfl
  | cons b rest ih =>
      show Option.map (fun q => q.2)
        (((n, b) :: rest.enumFrom (n + 1)).find? (fun q => P q.2)) = _
      by_cases hp : P b
      · rw [List.find?_cons_of_pos _ (by simpa using hp),
            List.find?_cons_of_pos _ hp]
        rfl
      · rw [List.find?_cons_of_neg _ (by simpa using hp),
            List.find?_cons_of_neg _ (by simpa using hp)]
        exact ih (n + 1)

/-- Filtering by a test on the bid only does not change which block
find? locates, when the seeked bid passes the test. -/
theorem find?_filter_bidkeep (l : List BasicBlock) (keepBid : Nat → Bool) (x : Nat)
    (hx : keepBid x = true) :
    (l.filter (fun b => keepBid b.bid)).find? (fun b => b.bid == x)
      = l.find? (fun b => b.bid == x) := by
  induction l with
  | nil => rfl
  | cons b rest ih =>
      simp only [List.filter_cons]
      by_cases hbx : b.bid = x
      · have hk : keepBid b.bid = true := by rw [hbx]; exact hx
        rw [if_pos hk,
            List.find?_cons_of_pos _ (by simp [hbx]),
            List.find?_cons_of_pos _ (by simp [hbx])]
      · by_cases hk : keepBid b.bid = true
        · rw [if_pos hk,
              List.find?_cons_of_neg _ (by simp [hbx]),
              List.find?_cons_of_neg _ (by simp [hbx])]
          exact ih
        · rw [if_neg hk,
              List.find?_cons_of_neg _ (by simp [hbx])]
          exact ih

/-- For a block the DFS marked, unreachable-block removal preserves any
projection of the dereferenced block that ignores the index field. -/
theorem rub_blockByIdD_proj {α : Type} (fn : Function) (x : Nat)
    (proj : BasicBlock → α)
    (hproj : ∀ (i : Nat) (b : BasicBlock), proj { b with index := i } = proj b)
    (hx : x ∈ dfsReachable fn (dfsFuel fn) [fn.entry] []) :
    proj ((removeUnreachableBlocks fn).1.blockByIdD x) = proj (fn.blockByIdD x) := by
  have hxc : (dfsReachable fn (dfsFuel fn) [fn.entry] []).contains x = true := by
    simpa using hx
  simp only [removeUnreachableBlocks]
  split
  case isFalse h => rfl
  case isTrue h =>
      simp only [Function.blockByIdD]
      rw [List.find?_map]
      have hpred : ((fun (b : BasicBlock) => b.bid == x)
          ∘ (fun (q : Nat × BasicBlock) => { q.2 with index := q.1 }))
            = (fun (q : Nat × BasicBlock) => q.2.bid == x) := by
        funext q
        rfl
      rw [hpred]
      have hsnd := snd_find?_enumFrom (fun b => b.bid == x) 0
        (fn.blocks.filter
          (fun b => (dfsReachable fn (dfsFuel fn) [fn.entry] []).contains b.bid))
      have hff := find?_filter_bidkeep fn.blocks
        (fun bid => (dfsReachable fn (dfsFuel fn) [fn.entry] []).contains bid) x hxc
      have henum : (fn.blocks.filter
          (fun b => (dfsReachable fn (dfsFuel fn) [fn.entry] []).contains b.bid)).enum
        = (fn.blocks.filter
          (fun b => (dfsReachable fn (dfsFuel fn) [fn.entry] []).contains b.bid)).enumFrom 0 := rfl
      rw [henum]
      rw [hff] at hsnd
      cases hfind : fn.blocks.find? (fun b => b.bid == x) with
      | none =>
          rw [hfind] at hsnd
          cases hq : ((fn.blocks.filter
              (fun b => (dfsReachable fn (dfsFuel fn) [fn.entry] []).contains b.bid)).enumFrom 0).find?
                (fun q => q.2.bid == x) with
          | none =>
              rfl
          | some q =>
              rw [hq] at hsnd
              simp at hsnd
      | some b =>
          rw [hfind] at hsnd
          cases hq : ((fn.blocks.filter
              (fun b => (dfsReachable fn (dfsFuel fn) [fn.entry] []).contains b.bid)).enumFrom 0).find?
                (fun q => q.2.bid == x) with
          | none =>
              rw [hq] at hsnd
              simp at hsnd
          | some q =>
              have hq2 : q.2 = b := by
                rw [hq] at hsnd
                simpa using hsnd
              show proj { q.2 with index := q.1 } = proj b
              rw [hproj, hq2]

/-- One iteration of the DCE loop keeps every critical instruction of a
reachable block, keeps the block reachable, and keeps the entry. -/
theorem dceOnce_preserves (fn : Function) (bid : Nat) (i : Instruction)
    (hcrit : isCritical i = true) (hreach : ReachesD fn bid)
    (hi : i ∈ (fn.blockByIdD bid).instructions) :
    ReachesD (dceOnce fn).1 bid
    ∧ i ∈ ((dceOnce fn).1.blockByIdD bid).instructions
    ∧ (dceOnce fn).1.entry = fn.entry := by
  have hf1eq : (dceOnce fn).1
      = (removeUnreachableBlocks
          ((removeUnusedInstructions fn (markUsedValues fn)).1)).1 := rfl
  set used := markUsedValues fn with hused
  set f1 := (removeUnusedInstructions fn used).1 with hf1
  have he1 : f1.entry = fn.entry := rfl
  have hreach1 : ReachesD f1 bid := by
    refine reachesD_transfer fn f1 he1 ?_ bid hreach
    intro v _
    exact ru_successors fn used v
  have hi1 : i ∈ (f1.blockByIdD bid).instructions := by
    rw [hf1, ru_instructions]
    exact List.mem_filter.mpr ⟨hi, by simp [dceKeep, hcrit]⟩
  have hdfs : ∀ v, ReachesD f1 v → v ∈ dfsReachable f1 (dfsFuel f1) [f1.entry] [] :=
    fun v hv => reachesD_mem_dfs f1 v hv
  have he2 : (removeUnreachableBlocks f1).1.entry = fn.entry := by
    rw [rub_entry]
    exact he1
  have hreach2 : ReachesD (removeUnreachableBlocks f1).1 bid := by
    refine reachesD_transfer f1 (removeUnreachableBlocks f1).1 (rub_entry f1) ?_ bid hreach1
    intro v hv
    exact rub_blockByIdD_proj f1 v (fun b => b.successors) (fun _ _ => rfl) (hdfs v hv)
  have hi2 : i ∈ ((removeUnreachableBlocks f1).1.blockByIdD bid).instructions := by
    rw [rub_blockByIdD_proj f1 bid (fun b => b.instructions) (fun _ _ => rfl)
      (hdfs bid hreach1)]
    exact hi1
  rw [hf1eq]
  exact ⟨hreach2, hi2, he2⟩

/-- The whole DCE loop keeps every critical instruction of a reachable
block, for any fuel. -/
theorem dceLoop_preserves : ∀ (fuel : Nat) (fn : Function) (bid : Nat) (i : Instruction),
    isCritical i = true → ReachesD fn bid → i ∈ (fn.blockByIdD bid).instructions →
    i ∈ ((dceLoop fuel fn).blockByIdD bid).instructions
  | 0, fn, bid, i, _, _, hi => hi
  | fuel + 1, fn, bid, i, hcrit, hreach, hi => by
      obtain ⟨hr2, hi2, _⟩ := dceOnce_preserves fn bid i hcrit hreach hi
      show i ∈ ((if (dceOnce fn).2 = true then dceLoop fuel (dceOnce fn).1
             else (dceOnce fn).1).blockByIdD bid).instructions
      by_cases hmod : (dceOnce fn).2 = true
      · rw [if_pos hmod]
        exact dceLoop_preserves fuel (dceOnce fn).1 bid i hcrit hr2 hi2
      · rw [if_neg hmod]
        exact hi2

/-- An element of an enumerated list is an element of the list. -/
theorem snd_mem_of_mem_enumFrom :
    ∀ (l : List BasicBlock) (n : Nat) (q : Nat × BasicBlock),
      q ∈ l.enumFrom n → q.2 ∈ l := by
  intro l
  induction l with
  | nil => intro n q hq; simp [List.enumFrom] at hq
  | cons b rest ih =>
      intro n q hq
      have : q ∈ (n, b) :: rest.enumFrom (n + 1) := hq
      rcases List.mem_cons.mp this with h | h
      · rw [h]
        exact List.mem_cons_self _ _
      · exact List.mem_cons_of_mem _ (ih (n + 1) q h)

/-- C5 witness: the amended laws applied at concrete types. -/
theorem C5_type_laws_witness :
    Ty.equals Ty.int Ty.bool = Ty.equals Ty.bool Ty.int
    ∧ Ty.equals (Ty.array Ty.int 2) (Ty.array Ty.int 2) = true
    ∧ Ty.equals (Ty.struct "P" [("x", Ty.int)]) (Ty.struct "P" [("x", Ty.int)]) = true
    ∧ Ty.assignableTo (Ty.array Ty.int 2) (Ty.array Ty.int 2) = true
    ∧ Ty.assignableTo Ty.invalid Ty.int = false :=
  ⟨C5_type_laws.1 Ty.int Ty.bool,
   C5_type_laws.2.1 (Ty.array Ty.int 2) rfl,
   (C5_type_laws.2.2.1 (Ty.struct "P" [("x", Ty.int)]) (Ty.struct "P" [("x", Ty.int)])
      (Ty.struct "P" [("x", Ty.int)]) rfl rfl rfl rfl rfl),
   C5_type_laws.2.2.2.1 (Ty.array Ty.int 2) rfl (by simp) (by simp),
   (C5_type_laws.2.2.2.2 Ty.int).2.2.1⟩

/-- C6 counterexample: `danglingFn` holds the critical Return of its
dead block before DeadCodeEliminationPass.Run and no longer afterwards,
so the run removed a critical instruction. -/
theorem C6_counterexample :
    isCritical (Instruction.ret (some (intConstV 2))) = true
    ∧ Instruction.ret (some (intConstV 2)) ∈ allInstructions danglingFn
    ∧ ¬ Instruction.ret (some (intConstV 2)) ∈ allInstructions (dceRun danglingFn) := by
  refine ⟨rfl, ?_, ?_⟩
  · show Instruction.ret (some (intConstV 2))
      ∈ [Instruction.ret (some (intConstV 1)), Instruction.ret (some (intConstV 2))]
    exact List.mem_cons_of_mem _ (List.mem_cons_self _ _)
  · show ¬ Instruction.ret (some (intConstV 2)) ∈ [Instruction.ret (some (intConstV 1))]
    intro hmem
    have h := List.mem_singleton.mp hmem
    simp [intConstV] at h

/-- C6 (amended): DeadCodeEliminationPass.Run never removes a critical
instruction from a block reachable from the entry: every Store, Call,
Return, Branch or Jump present in a reachable block before the run is
still present in that block afterwards. -/
theorem C6_dce_keeps_reachable_critical (fn : Function) (bid : Nat) (i : Instruction)
    (hcrit : isCritical i = true) (hreach : ReachesD fn bid)
    (hi : i ∈ (fn.blockByIdD bid).instructions) :
    i ∈ ((dceRun fn).blockByIdD bid).instructions :=
  dceLoop_preserves (countInstructions fn + fn.blocks.length + 1) fn bid i hcrit hreach hi

/-- C6 witness: the Return of the reachable entry block of `danglingFn`
survives the run. -/
theorem C6_dce_keeps_reachable_critical_witness :
    Instruction.ret (some (intConstV 1)) ∈ ((dceRun danglingFn).blockByIdD 0).instructions :=
  C6_dce_keeps_reachable_critical danglingFn 0 (Instruction.ret (some (intConstV 1)))
    rfl ReachesD.entry (List.mem_singleton.mpr rfl)

/-- C10: removeUnreachableBlocks only alters the block list and the
index fields: the name, entry, parameters, return type and locals are
untouched, and every surviving block agrees with a block of the original
function on bid, label, instructions, successors and predecessors. -/
theorem C10_rub_frame (fn : Function) :
    (removeUnreachableBlocks fn).1.name = fn.name
    ∧ (removeUnreachableBlocks fn).1.entry = fn.entry
    ∧ (removeUnreachableBlocks fn).1.parameters = fn.parameters
    ∧ (removeUnreachableBlocks fn).1.returnType = fn.returnType
    ∧ (removeUnreachableBlocks fn).1.locals = fn.locals
    ∧ ∀ b ∈ (removeUnreachableBlocks fn).1.blocks, ∃ b0 ∈ fn.blocks,
        b.bid = b0.bid ∧ b.label = b0.label ∧ b.instructions = b0.instructions
        ∧ b.successors = b0.successors ∧ b.predecessors = b0.predecessors := by
  simp only [removeUnreachableBlocks]
  split
  case isFalse h =>
      exact ⟨rfl, rfl, rfl, rfl, rfl, fun b hb => ⟨b, hb, rfl, rfl, rfl, rfl, rfl⟩⟩
  case isTrue h =>
      refine ⟨rfl, rfl, rfl, rfl, rfl, ?_⟩
      intro b hb
      simp only [List.mem_map] at hb
      obtain ⟨q, hq, hbq⟩ := hb
      have hq2 : q.2 ∈ fn.blocks.filter
          (fun b => (dfsReachable fn (dfsFuel fn) [fn.entry] []).contains b.bid) :=
        snd_mem_of_mem_enumFrom _ 0 q hq
      refine ⟨q.2, (List.mem_filter.mp hq2).1, ?_, ?_, ?_, ?_, ?_⟩ <;> rw [← hbq]

/-- C10 witness: on `danglingFn` the removal deletes block 1 yet the
surviving entry block still lists the deleted block 1 as a predecessor,
and the entry pointer is untouched. -/
theorem C10_rub_frame_witness :
    ((removeUnreachableBlocks danglingFn).1.blocks.map (fun b => b.bid)) = [0]
    ∧ ((removeUnreachableBlocks danglingFn).1.blockByIdD 0).predecessors = [1]
    ∧ (removeUnreachableBlocks danglingFn).1.entry = danglingFn.entry :=
  ⟨rfl, rfl, (C10_rub_frame danglingFn).2.1⟩

/-- C7: the single-shot optimizer is not idempotent, not even up to
renaming of value ids: on `idemFn` one run leaves 4 instructions and a
second run leaves 3, and the instruction-count profile of the wrapped
module changes between one and two runs of Optimize. -/
theorem C7_optimizer_not_idempotent :
    countInstructions (optimizeFunction idemFn) = 4
    ∧ countInstructions (optimizeFunction (optimizeFunction idemFn)) = 3
    ∧ (optimizeModule (optimizeModule idemModule)).functions.map countInstructions
        ≠ (optimizeModule idemModule).functions.map countInstructions := by
  refine ⟨rfl, rfl, fun h => ?_⟩
  have h2 : ([3] : List Nat) = [4] := h
  simp at h2

/-- C4 counterexample: a division whose LEFT operand is zero is folded
by the pass (to a Copy of the constant 0), while the specification says
a division is not folded when either operand is zero. -/
theorem C4_counterexample :
    foldBinaryOp .div foldDest (intConstV 0) (intConstV 1) ([] : CMap)
      = some (.copy foldDest (constIntValue 0)) := rfl

/-- C4 (amended): a BinaryOp over +, -, *, /, % whose operands resolve
to integer constants folds to a Copy of the computed constant typed Int,
except that / and % are left unchanged exactly when the RIGHT operand is
zero. -/
theorem C4_folding_arithmetic (op : BinaryOperator) (dest left right : Value)
    (constants : CMap) (lv rv : Int)
    (hop : op = .add ∨ op = .sub ∨ op = .mul ∨ op = .div ∨ op = .mod)
    (hl : getConstantValue left constants = some (.int lv))
    (hr : getConstantValue right constants = some (.int rv)) :
    foldBinaryOp op dest left right constants
      = if (op = .div ∨ op = .mod) ∧ rv = 0 then none
        else some (.copy dest (constIntValue (goArith op lv rv))) := by
  rcases hop with h | h | h | h | h <;> subst h
  · simp [foldBinaryOp, hl, hr, goArith]
  · simp [foldBinaryOp, hl, hr, goArith]
  · simp [foldBinaryOp, hl, hr, goArith]
  · by_cases hz : rv = 0
    · simp [foldBinaryOp, hl, hr, hz]
    · simp [foldBinaryOp, hl, hr, goArith, hz]
  · by_cases hz : rv = 0
    · simp [foldBinaryOp, hl, hr, hz]
    · simp [foldBinaryOp, hl, hr, goArith, hz]

/-- C4 witness: 7 / 2 with a nonzero divisor folds to a Copy of 3. -/
theorem C4_folding_arithmetic_witness :
    foldBinaryOp .div foldDest (intConstV 7) (intConstV 2) ([] : CMap)
      = if ((BinaryOperator.div = .div ∨ BinaryOperator.div = .mod) ∧ (2 : Int) = 0)
        then none
        else some (.copy foldDest (constIntValue (goArith .div 7 2))) :=
  C4_folding_arithmetic .div foldDest (intConstV 7) (intConstV 2) ([] : CMap) 7 2
    (Or.inr (Or.inr (Or.inr (Or.inl rfl)))) rfl rfl

/-- Decoding a nonempty byte list consumes at least one byte. -/
theorem decodeRune_size_pos (bytes : List Nat) (h : bytes ≠ []) :
    1 ≤ (decodeRune bytes).2 := by
  cases bytes with
  | nil => exact absurd rfl h
  | cons b0 rest =>
    cases rest with
    | nil =>
        simp only [decodeRune]
        split_ifs <;> simp
    | cons b1 rest2 =>
        cases rest2 with
        | nil => simp only [decodeRune]; split_ifs <;> simp
        | cons b2 rest3 =>
            cases rest3 with
            | nil => simp only [decodeRune]; split_ifs <;> simp
            | cons b3 rest4 => simp only [decodeRune]; split_ifs <;> simp

/-- GoodStep is reflexive. -/
theorem gs_refl (l : Lexer) : GoodStep l l := ⟨rfl, le_refl _⟩

/-- GoodStep composes. -/
theorem gs_trans {a b c : Lexer} (h1 : GoodStep a b) (h2 : GoodStep b c) : GoodStep a c :=
  ⟨h2.1.trans h1.1, h1.2.trans h2.2⟩

/-- advance makes a good step. -/
theorem gs_advance (l : Lexer) : GoodStep l (l.advance).2 := by
  simp only [Lexer.advance]
  split
  · exact gs_refl l
  · exact ⟨rfl, Nat.le_add_right _ _⟩

/-- advance moves strictly forward when not at the end. -/
theorem advance_strict (l : Lexer) (h : l.isAtEnd = false) :
    l.current < ((l.advance).2).current := by
  simp only [Lexer.advance, h]
  simp only [Bool.false_eq_true, if_false]
  have hne : l.source.drop l.current ≠ [] := by
    intro hd
    have := List.drop_eq_nil_iff.mp hd
    simp [Lexer.isAtEnd] at h
    omega
  have := decodeRune_size_pos _ hne
  show l.current < l.current + (decodeRune (l.source.drop l.current)).2
  omega

/-- matchRune makes a good step. -/
theorem gs_matchRune (l : Lexer) (e : Nat) : GoodStep l (l.matchRune e).2 := by
  simp only [Lexer.matchRune]
  split
  · exact gs_refl l
  · split
    · exact gs_refl l
    · exact ⟨rfl, Nat.le_add_right _ _⟩

/-- skipWhitespace makes a good step. -/
theorem gs_skipWhitespace : ∀ (fuel : Nat) (l : Lexer), GoodStep l (skipWhitespace fuel l)
  | 0, l => gs_refl l
  | fuel + 1, l => by
      simp only [skipWhitespace]
      split
      · exact gs_refl l
      · split
        · exact gs_trans (gs_advance l) (gs_skipWhitespace fuel _)
        · split
          · refine gs_trans (gs_advance l) (gs_trans ?_ (gs_skipWhitespace fuel _))
            exact ⟨rfl, le_refl _⟩
          · exact gs_refl l

/-- The identifier loop makes a good step. -/
theorem gs_scanIdentLoop (uni : Nat → Bool) :
    ∀ (fuel : Nat) (l : Lexer), GoodStep l (scanIdentLoop uni fuel l)
  | 0, l => gs_refl l
  | fuel + 1, l => by
      simp only [scanIdentLoop]
      split
      · exact gs_refl l
      · split
        · exact gs_trans (gs_advance l) (gs_scanIdentLoop uni fuel _)
        · exact gs_refl l

/-- The digit loop makes a good step. -/
theorem gs_scanDigitsLoop : ∀ (fuel : Nat) (l : Lexer), GoodStep l (scanDigitsLoop fuel l)
  | 0, l => gs_refl l
  | fuel + 1, l => by
      simp only [scanDigitsLoop]
      split
      · exact gs_trans (gs_advance l) (gs_scanDigitsLoop fuel _)
      · exact gs_refl l

/-- The line-comment loop makes a good step. -/
theorem gs_scanLineCommentLoop :
    ∀ (fuel : Nat) (l : Lexer), GoodStep l (scanLineCommentLoop fuel l)
  | 0, l => gs_refl l
  | fuel + 1, l => by
      simp only [scanLineCommentLoop]
      split
      · exact gs_trans (gs_advance l) (gs_scanLineCommentLoop fuel _)
      · exact gs_refl l

/-- The block-comment loop makes a good step. -/
theorem gs_scanBlockCommentLoop :
    ∀ (fuel : Nat) (l : Lexer) (d : Nat), GoodStep l (scanBlockCommentLoop fuel l d).1
  | 0, l, d => gs_refl l
  | fuel + 1, l, d => by
      simp only [scanBlockCommentLoop]
      split
      · split
        · exact gs_trans (gs_trans (gs_advance l) (gs_advance _))
            (gs_scanBlockCommentLoop fuel _ _)
        · split
          · exact gs_trans (gs_trans (gs_advance l) (gs_advance _))
              (gs_scanBlockCommentLoop fuel _ _)
          · split
            · refine gs_trans ?_ (gs_trans (gs_advance _) (gs_scanBlockCommentLoop fuel _ _))
              exact ⟨rfl, le_refl _⟩
            · exact gs_trans (gs_advance l) (gs_scanBlockCommentLoop fuel _ _)
      · exact gs_refl l

/-- scanIdentifier makes a good step. -/
theorem gs_scanIdentifier (uni : Nat → Bool) (fuel : Nat) (l : Lexer) :
    GoodStep l (scanIdentifier uni fuel l).2 :=
  gs_scanIdentLoop uni fuel l

/-- The exponent backtrack of scanNumber restores the position saved
before the exponent marker, which the entry position precedes. -/
theorem gs_backtrack {l l2 lb : Lexer} (h2 : GoodStep l l2) (hb : GoodStep l2 lb) :
    GoodStep l { lb with current := l2.current } :=
  ⟨hb.1.trans h2.1, h2.2⟩

/-- scanNumber makes a good step. -/
theorem gs_scanNumber (fuel : Nat) (l : Lexer) : GoodStep l (scanNumber fuel l).2 := by
  simp only [scanNumber]
  repeat' split
  all_goals first
    | exact gs_scanDigitsLoop fuel l
    | exact gs_trans (gs_scanDigitsLoop fuel l)
        (gs_trans (gs_advance _) (gs_scanDigitsLoop fuel _))
    | exact gs_backtrack (gs_scanDigitsLoop fuel l) (gs_advance _)
    | exact gs_backtrack (gs_scanDigitsLoop fuel l)
        (gs_trans (gs_advance _) (gs_advance _))
    | exact gs_backtrack (gs_trans (gs_scanDigitsLoop fuel l)
          (gs_trans (gs_advance _) (gs_scanDigitsLoop fuel _))) (gs_advance _)
    | exact gs_backtrack (gs_trans (gs_scanDigitsLoop fuel l)
          (gs_trans (gs_advance _) (gs_scanDigitsLoop fuel _)))
        (gs_trans (gs_advance _) (gs_advance _))
    | exact gs_trans (gs_scanDigitsLoop fuel l)
        (gs_trans (gs_advance _) (gs_scanDigitsLoop fuel _))
    | exact gs_trans (gs_scanDigitsLoop fuel l)
        (gs_trans (gs_advance _) (gs_trans (gs_advance _) (gs_scanDigitsLoop fuel _)))
    | exact gs_trans (gs_scanDigitsLoop fuel l) (gs_trans (gs_advance _)
        (gs_trans (gs_scanDigitsLoop fuel _)
          (gs_trans (gs_advance _) (gs_scanDigitsLoop fuel _))))
    | exact gs_trans (gs_scanDigitsLoop fuel l) (gs_trans (gs_advance _)
        (gs_trans (gs_scanDigitsLoop fuel _)
          (gs_trans (gs_advance _) (gs_trans (gs_advance _) (gs_scanDigitsLoop fuel _)))))

/-- scanString makes a good step. -/
theorem gs_scanString : ∀ (fuel : Nat) (l : Lexer), GoodStep l (scanString fuel l).2
  | 0, l => gs_refl l
  | fuel + 1, l => by
      simp only [scanString]
      split
      · exact gs_refl l
      · split
        · exact gs_advance l
        · split
          · exact gs_refl l
          · split
            · refine gs_trans (gs_advance l) (gs_trans ?_ (gs_scanString fuel _))
              split
              · exact gs_advance _
              · exact gs_refl _
            · exact gs_trans (gs_advance l) (gs_scanString fuel _)

/-- scanChar makes a good step. -/
theorem gs_scanChar (l : Lexer) : GoodStep l (scanChar l).2 := by
  simp only [scanChar]
  repeat' split
  all_goals first
    | exact gs_refl l
    | exact gs_advance l
    | exact gs_trans (gs_advance l) (gs_advance _)
    | exact gs_trans (gs_advance l) (gs_trans (gs_advance _) (gs_advance _))

/-- scanLineComment makes a good step. -/
theorem gs_scanLineComment (fuel : Nat) (l : Lexer) :
    GoodStep l (scanLineComment fuel l).2 :=
  gs_scanLineCommentLoop fuel l

/-- scanBlockComment makes a good step. -/
theorem gs_scanBlockComment (fuel : Nat) (l : Lexer) :
    GoodStep l (scanBlockComment fuel l).2 := by
  simp only [scanBlockComment]
  split
  · exact gs_scanBlockCommentLoop fuel l 1
  · exact gs_scanBlockCommentLoop fuel l 1

/-- LookupKeyword classifies to a keyword or identifier, never EOF. -/
theorem iteNeAux {c : Prop} [Decidable c] {a b x : TokenType} (ha : a ≠ x) (hb : b ≠ x) :
    (if c then a else b) ≠ x := by split <;> assumption

/-- LookupKeyword classifies to a keyword or identifier, never EOF. -/
theorem lookupKeyword_ne_eof (text : List Nat) : lookupKeyword text ≠ TokenType.eof := by
  unfold lookupKeyword
  repeat refine iteNeAux (by simp) ?_
  simp

/-- scanIdentifier never yields the EOF token. -/
theorem scanIdentifier_ne_eof (uni : Nat → Bool) (fuel : Nat) (l : Lexer) :
    (scanIdentifier uni fuel l).1.type ≠ TokenType.eof :=
  lookupKeyword_ne_eof _

/-- scanNumber never yields the EOF token. -/
theorem scanNumber_ne_eof (fuel : Nat) (l : Lexer) :
    (scanNumber fuel l).1.1.type ≠ TokenType.eof := by
  intro h
  exact absurd h (by simp [scanNumber, Lexer.makeToken])

/-- scanString never yields the EOF token. -/
theorem scanString_ne_eof : ∀ (fuel : Nat) (l : Lexer),
    (scanString fuel l).1.1.type ≠ TokenType.eof
  | 0, l => by simp [scanString, Lexer.makeToken]
  | fuel + 1, l => by
      simp only [scanString]
      repeat' split
      all_goals first
        | exact scanString_ne_eof fuel _
        | simp [Lexer.makeToken]

/-- scanChar never yields the EOF token. -/
theorem scanChar_ne_eof (l : Lexer) : (scanChar l).1.1.type ≠ TokenType.eof := by
  simp only [scanChar]
  repeat' split
  all_goals simp [Lexer.makeToken]

/-- scanLineComment never yields the EOF token. -/
theorem scanLineComment_ne_eof (fuel : Nat) (l : Lexer) :
    (scanLineComment fuel l).1.type ≠ TokenType.eof := by
  simp [scanLineComment, Lexer.makeToken]

/-- scanBlockComment never yields the EOF token. -/
theorem scanBlockComment_ne_eof (fuel : Nat) (l : Lexer) :
    (scanBlockComment fuel l).1.1.type ≠ TokenType.eof := by
  simp only [scanBlockComment]
  split <;> simp [Lexer.makeToken]

/-- skipWhitespace does nothing at the end of the input. -/
theorem skipWhitespace_at_end : ∀ (fuel : Nat) (l : Lexer),
    l.isAtEnd = true → skipWhitespace fuel l = l
  | 0, _, _ => rfl
  | fuel + 1, l, h => by simp [skipWhitespace, h]

/-- Closing a NextToken dispatch leaf: the result state extends a strict
advance from the post-whitespace state and the token is not EOF. -/
theorem ntLeafR {l ls l2 : Lexer} {r : (Token × Option String) × Lexer}
    (hls : GoodStep l ls) (hadv : GoodStep ls l2) (hstrict : ls.current < l2.current)
    (hX : GoodStep l2 r.2) (ht : r.1.1.type ≠ TokenType.eof) :
    GoodStep l r.2
    ∧ (r.1.1.type = TokenType.eof → l.source.length ≤ r.2.current)
    ∧ (r.1.1.type ≠ TokenType.eof → l.current < r.2.current) :=
  ⟨gs_trans hls (gs_trans hadv hX), fun he => absurd he ht,
   fun _ => lt_of_le_of_lt hls.2 (lt_of_lt_of_le hstrict hX.2)⟩

/-- Both branches of an if satisfy a predicate. -/
theorem iteSpec {α : Type} {c : Prop} [Decidable c] {a b : α} {P : α → Prop}
    (ha : P a) (hb : P b) : P (if c then a else b) := by
  split
  · exact ha
  · exact hb

/-- Case split on an if whose branches both satisfy a predicate. -/
theorem iteSpecH {α : Type} {c : Prop} [Decidable c] {a b : α} {P : α → Prop}
    (ha : c → P a) (hb : ¬c → P b) : P (if c then a else b) := by
  split
  case isTrue h => exact ha h
  case isFalse h => exact hb h

/-- The operator switch makes a good step. -/
theorem nextTokenOp_gs (fuel : Nat) (ch : Nat) (l2 : Lexer) :
    GoodStep l2 (nextTokenOp fuel ch l2).2 := by
  simp only [nextTokenOp]
  repeat' (first
    | exact gs_refl _
    | exact gs_matchRune _ _
    | exact gs_trans (gs_matchRune _ _) (gs_matchRune _ _)
    | exact gs_trans (gs_matchRune _ _) (gs_scanLineComment _ _)
    | exact gs_trans (gs_matchRune _ _) (gs_scanBlockComment _ _)
    | exact gs_scanString _ _
    | exact gs_scanChar _
    | apply iteSpec (P := fun (r : (Token × Option String) × Lexer) =>
        GoodStep l2 r.2))

/-- The operator switch never yields the EOF token. -/
theorem nextTokenOp_ne_eof (fuel : Nat) (ch : Nat) (l2 : Lexer) :
    (nextTokenOp fuel ch l2).1.1.type ≠ TokenType.eof := by
  simp only [nextTokenOp]
  repeat' (first
    | exact scanLineComment_ne_eof _ _
    | exact scanBlockComment_ne_eof _ _
    | exact scanString_ne_eof _ _
    | exact scanChar_ne_eof _
    | apply iteSpec (P := fun (r : (Token × Option String) × Lexer) =>
        r.1.1.type ≠ TokenType.eof)
    | (simp only [Lexer.makeToken]; exact fun hc => absurd hc (by simp)))

/-- The operator switch makes a good step and never yields EOF. -/
theorem nextTokenOp_spec (fuel : Nat) (ch : Nat) (l2 : Lexer) :
    GoodStep l2 (nextTokenOp fuel ch l2).2
    ∧ (nextTokenOp fuel ch l2).1.1.type ≠ TokenType.eof :=
  ⟨nextTokenOp_gs fuel ch l2, nextTokenOp_ne_eof fuel ch l2⟩

/-- NextToken makes a good step; an EOF token is produced only with the
input exhausted, and any other token consumes at least one byte. -/
theorem nextToken_spec (uni : Nat → Bool) (l : Lexer) :
    GoodStep l (nextToken uni l).2
    ∧ ((nextToken uni l).1.1.type = TokenType.eof →
        l.source.length ≤ (nextToken uni l).2.current)
    ∧ ((nextToken uni l).1.1.type ≠ TokenType.eof →
        l.current < (nextToken uni l).2.current) := by
  have hsw := gs_skipWhitespace (l.source.length + 1) l
  simp only [nextToken]
  set l1 := skipWhitespace (l.source.length + 1) l with hl1
  have hls : GoodStep l { l1 with start := l1.current } := ⟨hsw.1, hsw.2⟩
  split
  case isTrue h =>
    refine ⟨hls, fun _ => ?_, fun hne => absurd rfl hne⟩
    simp only [Lexer.isAtEnd, decide_eq_true_eq] at h
    have hsrc : l1.source = l.source := hsw.1
    show l.source.length ≤ l1.current
    rw [← hsrc]
    exact h
  case isFalse h =>
    have hAE : ({ l1 with start := l1.current } : Lexer).isAtEnd = false := by
      cases hb : ({ l1 with start := l1.current } : Lexer).isAtEnd
      · rfl
      · exact absurd hb h
    have hstrict := advance_strict _ hAE
    split
    case isTrue hlet =>
      exact ntLeafR hls (gs_advance _) hstrict (gs_scanIdentifier uni _ _)
        (scanIdentifier_ne_eof uni _ _)
    case isFalse hlet =>
      split
      case isTrue hdig =>
        exact ntLeafR hls (gs_advance _) hstrict (gs_scanNumber _ _)
          (scanNumber_ne_eof _ _)
      case isFalse hdig =>
        obtain ⟨hop, hoptype⟩ := nextTokenOp_spec (l.source.length + 1) _ _
        exact ntLeafR hls (gs_advance _) hstrict hop hoptype

/-- At the end of the input NextToken yields the EOF token and only
moves the token-start marker. -/
theorem nextToken_at_end (uni : Nat → Bool) (l : Lexer)
    (h : l.source.length ≤ l.current) :
    (nextToken uni l).1.1.type = TokenType.eof
    ∧ (nextToken uni l).2 = { l with start := l.current } := by
  have hsw : skipWhitespace (l.source.length + 1) l = l :=
    skipWhitespace_at_end _ l (by simp [Lexer.isAtEnd]; exact h)
  have hcond : ({ l with start := l.current } : Lexer).isAtEnd = true := by
    simp [Lexer.isAtEnd]
    exact h
  simp only [nextToken, hsw, hcond]
  exact ⟨rfl, rfl⟩

/-- From any state, once the remaining byte budget is exhausted the
token stream has reached EOF and stays there. -/
theorem lexFrom_eof (uni : Nat → Bool) :
    ∀ (n : Nat) (l : Lexer), l.source.length - l.current ≤ n →
      (lexFrom uni n l).type = TokenType.eof
  | 0, l, h => by
      have h0 : l.source.length ≤ l.current := by omega
      exact (nextToken_at_end uni l h0).1
  | n + 1, l, h => by
      show (lexFrom uni n (nextToken uni l).2).type = TokenType.eof
      obtain ⟨hgs, heof, hne⟩ := nextToken_spec uni l
      by_cases ht : (nextToken uni l).1.1.type = TokenType.eof
      · refine lexFrom_eof uni n _ ?_
        have h2 := heof ht
        rw [hgs.1]
        omega
      · refine lexFrom_eof uni n _ ?_
        have h2 := hne ht
        rw [hgs.1]
        omega

/-- C8: lexing is total: from any start state the token stream reaches
the EOF token after at most one call per source byte, and every later
call yields EOF again; this holds for every source, every filename and
every letter classifier. -/
theorem C8_lexing_total (uni : Nat → Bool) (src : List Nat) (fname : String) (n : Nat)
    (h : src.length ≤ n) :
    (lexFrom uni n (initLexer src fname)).type = TokenType.eof :=
  lexFrom_eof uni n (initLexer src fname) (by simp only [initLexer]; omega)

/-- C8 witness: the three-byte source left-paren space right-paren is at
EOF from the fourth token on. -/
theorem C8_lexing_total_witness :
    ([40, 32, 41] : List Nat).length ≤ 4
    ∧ (lexFrom (fun _ => false) 4 (initLexer [40, 32, 41] "w")).type = TokenType.eof :=
  ⟨by decide, C8_lexing_total (fun _ => false) [40, 32, 41] "w" 4 (by decide)⟩

/-- C2: the second token of c2Src (the identifier x after a char literal
holding a three-byte character) carries the byte offset of its first
byte, but its column is the BYTE distance 7 from the line start plus
one, not the 5 the specification's scalar-value count gives. -/
theorem C2_column_bytes_not_runes :
    (lexFrom (fun _ => false) 1 (initLexer c2Src "f")).type = TokenType.identifier
    ∧ (lexFrom (fun _ => false) 1 (initLexer c2Src "f")).position.offset = 6
    ∧ (lexFrom (fun _ => false) 1 (initLexer c2Src "f")).position.line = 1
    ∧ (lexFrom (fun _ => false) 1 (initLexer c2Src "f")).position.column = 7
    ∧ specColumn c2Src 0 6 = 5 :=
  ⟨rfl, rfl, rfl, rfl, rfl⟩

/-- C3: the builder emits instructions after a terminator.  Built from
c3Decl (f() void with body - return; var x int = 2 -), the entry block
holds the explicit Return at position 0, then the Copy initializing x,
then the implicit Return appended because the block's LAST instruction
is no longer a terminator; so a terminator instruction occurs at a
non-last position, contradicting the claimed invariant. -/
theorem C3_emits_after_terminator :
    (buildFunction c3Scope (fun _ => Ty.int) 32 c3Decl).map
        (fun p => (p.1.blockByIdD 0).instructions)
      = some [Instruction.ret none, Instruction.copy c3X (intConstV 2),
              Instruction.ret none]
    ∧ Instruction.isTerminatorInstr (Instruction.ret none) = true := ⟨rfl, rfl⟩

end CompilerGo
